import Mathlib

/-!
# intrlist.c : an intrusive doubly-linked list

A shallow embedding of `src/intrlist.c` and a verification of its contract.

Memory is a map from node identities to `list_t` values.  A `list_t*` is an
optional node identity (`none` is `NULL`).  Every C function is a function on
the heap; dereferencing `NULL`, reading or writing outside the scratch buffer
and signed overflow of an `int` are undefined behaviour and make the embedded
function return `none`.

`size_t` is 64 bits wide and `int` is 32 bits wide (LP64).  A `list_t` holds a
`size_t` and two pointers, 24 bytes, so an address space of `2^64` bytes holds
fewer than `2^64 / 24` distinct nodes: node identities are drawn from
`Fin MAX_NODES`.
-/

namespace Intrlist

/-! ## Data model -/

/-- Number of values of a `size_t`: arithmetic on `count` is taken modulo it. -/
abbrev SIZE_MOD : Nat := 18446744073709551616

/-- Upper bound on the number of distinct `list_t` objects, `2^64 / 24`. -/
abbrev MAX_NODES : Nat := 768614336404564650

/-- Identity of a `list_t` object (a non-null `list_t*`). -/
abbrev NodeId := Fin MAX_NODES

/-- A `list_t*`; `none` is `NULL`. -/
abbrev Ptr := Option NodeId

/-- The struct `list_t` of the source: `count`, `prev`, `next`. -/
structure list_t where
  count : Nat
  prev : Ptr
  next : Ptr
deriving DecidableEq

/-- The memory: the value of every `list_t` object. -/
abbrev Heap := NodeId → list_t

/-- The store `a->count = v`. -/
def setCount (h : Heap) (a : NodeId) (v : Nat) : Heap :=
  fun b => if b = a then { h b with count := v } else h b

/-- The store `a->prev = v`. -/
def setPrev (h : Heap) (a : NodeId) (v : Ptr) : Heap :=
  fun b => if b = a then { h b with prev := v } else h b

/-- The store `a->next = v`. -/
def setNext (h : Heap) (a : NodeId) (v : Ptr) : Heap :=
  fun b => if b = a then { h b with next := v } else h b

/-! ## The operations of `intrlist.c` -/

/-- Source `list_init_`: `count = 1; prev = list; next = NULL`. -/
def list_init_ (h : Heap) (list : Ptr) : Option Heap :=
  match list with
  | none => none
  | some l =>
    let h1 := setCount h l 1
    let h2 := setPrev h1 l (some l)
    let h3 := setNext h2 l none
    some h3

/-- Source `list_count_`: `0` for `NULL`, else `list->count`.  The heap is
threaded through so that the absence of writes can be stated. -/
def list_count_ (h : Heap) (list : Ptr) : Heap × Nat :=
  match list with
  | none => (h, 0)
  | some l => (h, (h l).count)

/-- Source macro `list_count`: `(list == NULL) ? 0 : list_count_(&list->list_node)`. -/
def list_count (h : Heap) (list : Ptr) : Heap × Nat :=
  if list = none then (h, 0) else list_count_ h list

/-- Source `list_append_`. -/
def list_append_ (h : Heap) (list item : Ptr) : Option (Heap × Ptr) :=
  match list with
  | none =>
    match list_init_ h item with
    | none => none
    | some h1 => some (h1, item)
  | some l =>
    let last := (h l).prev
    let h1 := setPrev h l item
    match last with
    | none => none
    | some la =>
      let h2 := setNext h1 la item
      match item with
      | none => none
      | some it =>
        let h3 := setPrev h2 it last
        let h4 := setNext h3 it none
        let h5 := setCount h4 l (((h4 l).count + 1) % SIZE_MOD)
        some (h5, list)

/-- Source `list_remove_`. -/
def list_remove_ (h : Heap) (list item : Ptr) : Option (Heap × Ptr) :=
  if item = list then
    match list with
    | none => none
    | some l =>
      match (h l).next with
      | none => some (h, none)
      | some nf =>
        let h1 := setPrev h nf (h l).prev
        let h2 := setCount h1 nf (((h1 l).count + SIZE_MOD - 1) % SIZE_MOD)
        some (h2, some nf)
  else
    match item with
    | none => none
    | some it =>
      match (h it).prev with
      | none => none
      | some p =>
        let h1 := setNext h p (h it).next
        let h2 : Heap :=
          match (h1 it).next with
          | none => h1
          | some n => setPrev h1 n (h1 it).prev
        match list with
        | none => none
        | some l =>
          let h3 := if item = (h2 l).prev then setPrev h2 l (h2 it).prev else h2
          let h4 := setCount h3 l (((h3 l).count + SIZE_MOD - 1) % SIZE_MOD)
          some (h4, list)

/-- The comparator type `list_comp_func_t`, on the owning records of two
nodes: negative, zero or positive. -/
abbrev list_comp_func_t := NodeId → NodeId → Int

/-- Largest value of an `int`. -/
abbrev INT_MAX : Int := 2147483647

/-- Smallest value of an `int`. -/
abbrev INT_MIN : Int := -2147483648

/-- Conversion of a `size_t` value to `int`: the value itself when it fits,
else (implementation-defined; gcc and clang) the value reduced modulo `2^32`
into the range of `int`. -/
def toInt (v : Nat) : Int :=
  if v % 4294967296 < 2147483648 then ((v % 4294967296 : Nat) : Int)
  else ((v % 4294967296 : Nat) : Int) - 4294967296

/-- Addition of two `int`s; signed overflow is undefined. -/
def addInt (a b : Int) : Option Int :=
  if INT_MIN ≤ a + b ∧ a + b ≤ INT_MAX then some (a + b) else none

/-- The read `sortbuf[i]` of the scratch buffer; outside the buffer it is
undefined. -/
def index (sortbuf : List NodeId) (i : Int) : Option NodeId :=
  if 0 ≤ i then sortbuf[i.toNat]? else none

/-- The gather loop of `list_sort_`:
`for (item = list; item != NULL; item = item->next) sortbuf[i++] = item;`
`buf` holds the entries written so far and `room` is the number of entries of
the buffer not yet written; a write past the end of the buffer is undefined. -/
def gather (h : Heap) : Nat → Ptr → List NodeId → Option (List NodeId)
  | _, none, buf => some buf
  | 0, some _, _ => none
  | room + 1, some a, buf => gather h room (h a).next (buf ++ [a])

/-- The re-link loop of `list_sort_`:
`for (i = start + inc; i != end + inc; i += inc) newlist = list_append_(newlist, sortbuf[i]);`
with `stop = end + inc`.  Every iteration reads a buffer entry not read
before, so `sortbuf.length + 1` evaluations of the loop test always suffice;
the first argument counts them down. -/
def relink (sortbuf : List NodeId) (stop inc : Int) :
    Nat → Heap → Ptr → Int → Option (Heap × Ptr)
  | 0, _, _, _ => none
  | tests + 1, h, newlist, i =>
    if i = stop then some (h, newlist)
    else
      match index sortbuf i with
      | none => none
      | some item =>
        match list_append_ h newlist (some item) with
        | none => none
        | some (h1, newlist1) =>
          match addInt i inc with
          | none => none
          | some i1 => relink sortbuf stop inc tests h1 newlist1 i1

/-- Source `list_sort_`.  `qsort` is the C library's array sort, taken as a
parameter; `malloc` is taken to succeed and gives a buffer of
`(sizeof(list_t*) * list->count) / sizeof(list_t*)` entries, the product taken
in `size_t`. -/
def list_sort_ (qsort : list_comp_func_t → List NodeId → List NodeId) (h : Heap) (list : Ptr)
    (compfunc : list_comp_func_t) (rev : Bool) : Option (Heap × Ptr) :=
  match list with
  | none => none
  | some l =>
    let capacity := (8 * (h l).count % SIZE_MOD) / 8
    match gather h capacity list [] with
    | none => none
    | some buf =>
      if buf.length ≠ (h l).count then none
      else
        let sortbuf := qsort compfunc buf
        let last := toInt (((h l).count + SIZE_MOD - 1) % SIZE_MOD)
        let start : Int := if rev then last else 0
        let end_ : Int := if rev then 0 else last
        let inc : Int := if rev then -1 else 1
        match index sortbuf start with
        | none => none
        | some newlist =>
          let h1 := setCount h newlist 1
          let h2 := setNext h1 newlist none
          let h3 := setPrev h2 newlist (some newlist)
          match addInt start inc, addInt end_ inc with
          | some i0, some stop =>
            match relink sortbuf stop inc (sortbuf.length + 1) h3 (some newlist) i0 with
            | none => none
            | some (h4, newlist1) =>
              match index sortbuf end_ with
              | none => none
              | some e => some (setNext h4 e none, newlist1)
          | _, _ => none

/-- The comparator defines a strict weak order: its sign is consistent when the
arguments are swapped, "less than" (a negative result) is transitive, and
"equivalent" (a zero result) is transitive. -/
structure StrictWeakOrder (cmp : list_comp_func_t) : Prop where
  swap : ∀ a b, 0 < cmp a b ↔ cmp b a < 0
  trans : ∀ a b c, cmp a b < 0 → cmp b c < 0 → cmp a c < 0
  equiv_trans : ∀ a b c, cmp a b = 0 → cmp b c = 0 → cmp a c = 0

/-- The contract of the C library's `qsort`: with a comparator that defines a
strict weak order, the array afterwards holds the same elements, in
non-decreasing comparator order. -/
def QsortContract (qsort : list_comp_func_t → List NodeId → List NodeId) : Prop :=
  ∀ cmp, StrictWeakOrder cmp → ∀ buf,
    (qsort cmp buf).Perm buf ∧ (qsort cmp buf).Pairwise (fun a b => cmp a b ≤ 0)

/-- An array sort that meets `QsortContract`: insertion sort. -/
def insertion_qsort : list_comp_func_t → List NodeId → List NodeId :=
  fun cmp buf => buf.insertionSort (fun a b => cmp a b ≤ 0)

/-- The node with number `k`. -/
def node (k : Nat) : NodeId := ⟨k % MAX_NODES, Nat.mod_lt k (by decide)⟩

/-- The heap in which the nodes `0, 1, ..., n - 1` are linked, in this order,
into one list with head `node 0`. -/
def chainHeap (n : Nat) : Heap := fun a =>
  { count := n
    prev := if a.val = 0 then some (node (n - 1)) else some (node (a.val - 1))
    next := if a.val + 1 < n then some (node (a.val + 1)) else none }

/-- The walk of `chainHeap n`: `node 0, ..., node (n - 1)`. -/
def chainWalk (n : Nat) : List NodeId := (List.range' 0 n).map node

/-- The loop of the source's `makeList` (test helper):
`list = list_append(list, item)` for every item in turn. -/
def makeList_loop : List NodeId → Heap × Ptr → Option (Heap × Ptr)
  | [], st => some st
  | a :: as, st =>
    match list_append_ st.1 st.2 (some a) with
    | none => none
    | some st1 => makeList_loop as st1

/-- Source `makeList`: the loop, started with `list = NULL`. -/
def makeList (h : Heap) (items : List NodeId) : Option (Heap × Ptr) :=
  makeList_loop items (h, none)

/-- Heap of freshly made records (`calloc`): every field zero. -/
def emptyHeap : Heap := fun _ => ⟨0, none, none⟩

/-! ## Walks -/

/-- List segment: following `next` from `p` visits exactly the nodes `w`, in
order, and then arrives at `q`. -/
def Seg (h : Heap) : Ptr → List NodeId → Ptr → Prop
  | p, [], q => p = q
  | p, a :: w, q => p = some a ∧ Seg h (h a).next w q

instance Seg.decide (h : Heap) :
    (p : Ptr) → (w : List NodeId) → (q : Ptr) → Decidable (Seg h p w q)
  | p, [], q => inferInstanceAs (Decidable (p = q))
  | p, a :: w, q =>
    have := Seg.decide h (h a).next w q
    inferInstanceAs (Decidable (p = some a ∧ Seg h (h a).next w q))

/-- The forward walk over `next` from `p` is exactly `w` (and then ends). -/
abbrev Walk (h : Heap) (p : Ptr) (w : List NodeId) : Prop := Seg h p w none

/-- The backward walk: starting at `p` and following `prev` until the head is
reached visits exactly the nodes `w`, the head last. -/
def BackWalk (h : Heap) (head : NodeId) : Ptr → List NodeId → Prop
  | _, [] => False
  | p, [a] => p = some a ∧ a = head
  | p, a :: b :: w => p = some a ∧ a ≠ head ∧ BackWalk h head (h a).prev (b :: w)

instance BackWalk.decide (h : Heap) (head : NodeId) :
    (p : Ptr) → (w : List NodeId) → Decidable (BackWalk h head p w)
  | _, [] => inferInstanceAs (Decidable False)
  | p, [a] => inferInstanceAs (Decidable (p = some a ∧ a = head))
  | p, a :: b :: w =>
    have := BackWalk.decide h head (h a).prev (b :: w)
    inferInstanceAs (Decidable (p = some a ∧ a ≠ head ∧ BackWalk h head (h a).prev (b :: w)))

/-- Back links: `p` is the `prev` of the first node of `w`, and every later
node of `w` has its predecessor in `w` as `prev`. -/
def PrevOk (h : Heap) : NodeId → List NodeId → Prop
  | _, [] => True
  | p, q :: w => (h q).prev = some p ∧ PrevOk h q w

instance PrevOk.decide (h : Heap) :
    (p : NodeId) → (w : List NodeId) → Decidable (PrevOk h p w)
  | _, [] => inferInstanceAs (Decidable True)
  | p, q :: w =>
    have := PrevOk.decide h q w
    inferInstanceAs (Decidable ((h q).prev = some p ∧ PrevOk h q w))

/-- A well-formed list with head `head` and forward walk `w`: the `next` chain
from the head visits `w` and ends, `head.count` is the length of the walk,
`head.prev` is the last node of the walk, and every non-head node has its
predecessor as `prev`. -/
structure WellFormed (h : Heap) (head : NodeId) (w : List NodeId) : Prop where
  walk : Walk h (some head) w
  count : (h head).count = w.length
  tail : (h head).prev = w.getLast?
  links : PrevOk h head w.tail

instance WellFormed.decide (h : Heap) (head : NodeId) (w : List NodeId) :
    Decidable (WellFormed h head w) :=
  decidable_of_iff
    (Walk h (some head) w ∧ (h head).count = w.length ∧ (h head).prev = w.getLast? ∧
      PrevOk h head w.tail)
    ⟨fun ⟨a, b, c, d⟩ => ⟨a, b, c, d⟩, fun ⟨a, b, c, d⟩ => ⟨a, b, c, d⟩⟩

/-! ## Sequences of calls -/

/-- A call made on the current list. `init x adopt` is `list_init_(x)`, after
which the caller either takes `x` as its list (`adopt`) or keeps its list. -/
inductive Op where
  | init (x : NodeId) (adopt : Bool)
  | append (x : NodeId)
  | remove (x : NodeId)

/-- One call, on the heap and the caller's current head pointer. -/
def step (st : Heap × Ptr) : Op → Option (Heap × Ptr)
  | Op.init x adopt =>
    match list_init_ st.1 (some x) with
    | none => none
    | some h1 => some (h1, if adopt then some x else st.2)
  | Op.append x => list_append_ st.1 st.2 (some x)
  | Op.remove x => list_remove_ st.1 st.2 (some x)

/-- A sequence of calls, each on the head returned by the one before. -/
def run : List Op → Heap × Ptr → Option (Heap × Ptr)
  | [], st => some st
  | op :: ops, st =>
    match step st op with
    | none => none
    | some st1 => run ops st1

/-- The sequence of live elements after a sequence of calls, starting from `w`. -/
def contents : List Op → List NodeId → List NodeId
  | [], w => w
  | Op.init x adopt :: ops, w => contents ops (if adopt then [x] else w)
  | Op.append x :: ops, w => contents ops (w ++ [x])
  | Op.remove x :: ops, w => contents ops (w.erase x)

/-- The calls respect the contract: `list_init_` and `list_append_` get a node
that is not in the list, `list_remove_` gets a node that is in the list. -/
def Legal : List Op → List NodeId → Prop
  | [], _ => True
  | Op.init x adopt :: ops, w => x ∉ w ∧ Legal ops (if adopt then [x] else w)
  | Op.append x :: ops, w => x ∉ w ∧ Legal ops (w ++ [x])
  | Op.remove x :: ops, w => x ∈ w ∧ Legal ops (w.erase x)

instance Legal.decide : (ops : List Op) → (w : List NodeId) → Decidable (Legal ops w)
  | [], _ => inferInstanceAs (Decidable True)
  | Op.init x adopt :: ops, w =>
    have := Legal.decide ops (if adopt then [x] else w)
    inferInstanceAs (Decidable (x ∉ w ∧ Legal ops (if adopt then [x] else w)))
  | Op.append x :: ops, w =>
    have := Legal.decide ops (w ++ [x])
    inferInstanceAs (Decidable (x ∉ w ∧ Legal ops (w ++ [x])))
  | Op.remove x :: ops, w =>
    have := Legal.decide ops (w.erase x)
    inferInstanceAs (Decidable (x ∈ w ∧ Legal ops (w.erase x)))

/-- The state of a list given by its head pointer: absent and empty, or
well-formed with walk `w`. -/
def ListInv (h : Heap) : Ptr → List NodeId → Prop
  | none, w => w = []
  | some l, w => WellFormed h l w

/-! ## The test data of `test_listSort` and `test_listSortReverse` -/

/-- The payload `x` of the five records of `test_listSort`, in the order in
which they are appended: 1, 5, 4, 7, 2. -/
def testKey : NodeId → Int := fun a =>
  if a = 0 then 1 else if a = 1 then 5 else if a = 2 then 4 else if a = 3 then 7 else 2

/-- The comparator `sortData` of the tests: the difference of the payloads. -/
def sortData : list_comp_func_t := fun a b => testKey a - testKey b

/-! ## The scenario of `test_listAppendRemove` -/

/-- The payload `x` of the six records made by `test_listAppendRemove`, in the
order of its `makeData` calls: 1, 2, 3, 2, 5, 7. -/
def scenarioKey : NodeId → Int := fun a =>
  if a = 0 then 1 else if a = 1 then 2 else if a = 2 then 3 else if a = 3 then 2
  else if a = 4 then 5 else 7

/-- A statement of `test_listAppendRemove`:
`data_list = list_append(data_list, item)`, or
`node = data_list->list_node.next; data_list = list_remove(data_list, node)`, or
`node = data_list; data_list = list_remove(data_list, node)`. -/
inductive TestStep where
  | append (item : NodeId)
  | removeSecond
  | removeHead

/-- One statement of the test, on the heap and `data_list`. -/
def testStep (st : Heap × Ptr) : TestStep → Option (Heap × Ptr)
  | TestStep.append item => list_append_ st.1 st.2 (some item)
  | TestStep.removeSecond =>
    match st.2 with
    | none => none
    | some l => list_remove_ st.1 st.2 (st.1 l).next
  | TestStep.removeHead => list_remove_ st.1 st.2 st.2

/-- A sequence of statements of the test. -/
def testRun : List TestStep → Heap × Ptr → Option (Heap × Ptr)
  | [], st => some st
  | s :: ss, st =>
    match testStep st s with
    | none => none
    | some st1 => testRun ss st1

/-- Source `test_listAppendRemove`: its nine list operations, on the records
numbered in the order in which `makeData` makes them. -/
def test_listAppendRemove : List TestStep :=
  [TestStep.append 0, TestStep.append 1, TestStep.removeSecond, TestStep.append 2,
    TestStep.append 3, TestStep.removeSecond, TestStep.append 4, TestStep.removeHead,
    TestStep.append 5]

/-- After the first `k` operations of `test_listAppendRemove`, started with
`data_list = NULL`, the forward walk carries the keys `keys` and `list_count_`
of the head is `count`. -/
def ScenarioAfter (k : Nat) (keys : List Int) (count : Nat) : Prop :=
  ∃ st nodes, testRun (test_listAppendRemove.take k) (emptyHeap, none) = some st ∧
    Walk st.1 st.2 nodes ∧ nodes.map scenarioKey = keys ∧ (list_count_ st.1 st.2).2 = count

/-! ## Reachable lists -/

/-- The lists a caller can hold: the empty list at the start, and from a list
it holds, the list returned by `list_append_` on a node that is not in the
list, by `list_remove_` on a node that is in the list, or by `list_sort_`.  A
call whose behaviour is undefined returns nothing and reaches no list. -/
inductive Reachable (qsort : list_comp_func_t → List NodeId → List NodeId) : Heap → Ptr → Prop
  | empty (h : Heap) : Reachable qsort h none
  | append {h : Heap} {p : Ptr} {w : List NodeId} {x : NodeId} {h' : Heap} {p' : Ptr} :
      Reachable qsort h p → Walk h p w → x ∉ w →
      list_append_ h p (some x) = some (h', p') → Reachable qsort h' p'
  | remove {h : Heap} {p : Ptr} {w : List NodeId} {x : NodeId} {h' : Heap} {p' : Ptr} :
      Reachable qsort h p → Walk h p w → x ∈ w →
      list_remove_ h p (some x) = some (h', p') → Reachable qsort h' p'
  | sort {h : Heap} {p : Ptr} {cmp : list_comp_func_t} {rev : Bool} {h' : Heap} {p' : Ptr} :
      Reachable qsort h p → list_sort_ qsort h p cmp rev = some (h', p') →
      Reachable qsort h' p'

/-! ## Reading a heap after a store -/

@[simp] theorem setCount_count (h : Heap) (a b : NodeId) (v : Nat) :
    (setCount h a v b).count = if b = a then v else (h b).count := by
  unfold setCount; split <;> rfl

@[simp] theorem setCount_prev (h : Heap) (a b : NodeId) (v : Nat) :
    (setCount h a v b).prev = (h b).prev := by
  unfold setCount; split <;> rfl

@[simp] theorem setCount_next (h : Heap) (a b : NodeId) (v : Nat) :
    (setCount h a v b).next = (h b).next := by
  unfold setCount; split <;> rfl

@[simp] theorem setPrev_count (h : Heap) (a b : NodeId) (v : Ptr) :
    (setPrev h a v b).count = (h b).count := by
  unfold setPrev; split <;> rfl

@[simp] theorem setPrev_prev (h : Heap) (a b : NodeId) (v : Ptr) :
    (setPrev h a v b).prev = if b = a then v else (h b).prev := by
  unfold setPrev; split <;> rfl

@[simp] theorem setPrev_next (h : Heap) (a b : NodeId) (v : Ptr) :
    (setPrev h a v b).next = (h b).next := by
  unfold setPrev; split <;> rfl

@[simp] theorem setNext_count (h : Heap) (a b : NodeId) (v : Ptr) :
    (setNext h a v b).count = (h b).count := by
  unfold setNext; split <;> rfl

@[simp] theorem setNext_prev (h : Heap) (a b : NodeId) (v : Ptr) :
    (setNext h a v b).prev = (h b).prev := by
  unfold setNext; split <;> rfl

@[simp] theorem setNext_next (h : Heap) (a b : NodeId) (v : Ptr) :
    (setNext h a v b).next = if b = a then v else (h b).next := by
  unfold setNext; split <;> rfl

/-! ## Segments -/

theorem Seg.congr_next {h h' : Heap} : ∀ {w : List NodeId} {p q : Ptr},
    (∀ a ∈ w, (h' a).next = (h a).next) → Seg h p w q → Seg h' p w q
  | [], _, _, _, hs => hs
  | a :: w, _, _, hn, hs => by
    refine ⟨hs.1, ?_⟩
    rw [hn a (List.mem_cons_self a w)]
    exact Seg.congr_next (fun b hb => hn b (List.mem_cons_of_mem a hb)) hs.2

theorem Seg.split_iff {h : Heap} : ∀ {w1 w2 : List NodeId} {p q : Ptr},
    Seg h p (w1 ++ w2) q ↔ ∃ m, Seg h p w1 m ∧ Seg h m w2 q
  | [], w2, p, q => by
    constructor
    · intro hs; exact ⟨p, rfl, hs⟩
    · rintro ⟨m, hm, hs⟩
      have : p = m := hm
      subst this; exact hs
  | a :: w1, w2, p, q => by
    constructor
    · rintro ⟨hp, hs⟩
      obtain ⟨m, h1, h2⟩ := Seg.split_iff.mp hs
      exact ⟨m, ⟨hp, h1⟩, h2⟩
    · rintro ⟨m, ⟨hp, h1⟩, h2⟩
      exact ⟨hp, Seg.split_iff.mpr ⟨m, h1, h2⟩⟩

theorem Seg.snoc_iff {h : Heap} {w : List NodeId} {a : NodeId} {p q : Ptr} :
    Seg h p (w ++ [a]) q ↔ Seg h p w (some a) ∧ (h a).next = q := by
  rw [Seg.split_iff]
  constructor
  · rintro ⟨m, h1, h2, h3⟩
    subst h2; exact ⟨h1, h3⟩
  · rintro ⟨h1, h2⟩
    exact ⟨some a, h1, rfl, h2⟩

theorem Walk.unique {h : Heap} : ∀ {w w' : List NodeId} {p : Ptr},
    Walk h p w → Walk h p w' → w = w'
  | [], [], _, _, _ => rfl
  | [], b :: w', p, h1, h2 => by
    have e1 : p = none := h1
    have e2 : p = some b := h2.1
    rw [e1] at e2; cases e2
  | a :: w, [], p, h1, h2 => by
    have e1 : p = none := h2
    have e2 : p = some a := h1.1
    rw [e1] at e2; cases e2
  | a :: w, b :: w', p, h1, h2 => by
    have e1 : p = some a := h1.1
    have e2 : p = some b := h2.1
    rw [e1] at e2
    cases e2
    rw [Walk.unique h1.2 h2.2]

theorem Walk.nodup {h : Heap} : ∀ {w : List NodeId} {p : Ptr}, Walk h p w → w.Nodup
  | [], _, _ => List.nodup_nil
  | a :: w, p, hw => by
    refine List.nodup_cons.mpr ⟨?_, Walk.nodup hw.2⟩
    intro hmem
    obtain ⟨s, t, rfl⟩ := List.append_of_mem hmem
    obtain ⟨m, -, h2⟩ := Seg.split_iff.mp hw.2
    have h3 : Walk h (h a).next t := h2.2
    have := congrArg List.length (Walk.unique h3 hw.2)
    simp at this
    omega

theorem Walk.head_eq {h : Heap} {l : NodeId} {w : List NodeId} (hw : Walk h (some l) w) :
    ∃ w', w = l :: w' := by
  cases w with
  | nil => cases (hw : some l = none)
  | cons a w' =>
    have e : some l = some a := hw.1
    cases e
    exact ⟨w', rfl⟩

theorem Walk.length_lt {h : Heap} {p : Ptr} {w : List NodeId} (hw : Walk h p w) {x : NodeId}
    (hx : x ∉ w) : w.length + 1 ≤ MAX_NODES := by
  have hnd : (x :: w).Nodup := List.nodup_cons.mpr ⟨hx, hw.nodup⟩
  have hlen := hnd.length_le_card
  rw [Fintype.card_fin, List.length_cons] at hlen
  exact hlen

/-! ## Back links -/

theorem PrevOk.congr_prev {h h' : Heap} : ∀ {w : List NodeId} {p : NodeId},
    (∀ a ∈ w, (h' a).prev = (h a).prev) → PrevOk h p w → PrevOk h' p w
  | [], _, _, _ => trivial
  | a :: w, _, hn, hs => by
    refine ⟨?_, PrevOk.congr_prev (fun b hb => hn b (List.mem_cons_of_mem a hb)) hs.2⟩
    rw [hn a (List.mem_cons_self a w)]
    exact hs.1

theorem PrevOk.prev_append_iff {h : Heap} : ∀ {w1 w2 : List NodeId} {p : NodeId},
    PrevOk h p (w1 ++ w2) ↔ PrevOk h p w1 ∧ PrevOk h ((p :: w1).getLast (by simp)) w2
  | [], w2, p => by simp [PrevOk]
  | a :: w1, w2, p => by
    have ih := @PrevOk.prev_append_iff h w1 w2 a
    show ((h a).prev = some p ∧ PrevOk h a (w1 ++ w2)) ↔
      ((h a).prev = some p ∧ PrevOk h a w1) ∧ PrevOk h ((p :: a :: w1).getLast (by simp)) w2
    rw [ih, and_assoc, List.getLast_cons (List.cons_ne_nil a w1)]

theorem PrevOk.prev_snoc_iff {h : Heap} {w : List NodeId} {p a : NodeId} :
    PrevOk h p (w ++ [a]) ↔ PrevOk h p w ∧ (h a).prev = (p :: w).getLast? := by
  rw [PrevOk.prev_append_iff]
  simp [PrevOk, List.getLast?_eq_getLast]

/-! ## Effect of `list_append_` on a non-empty list -/

/-- The heap after `list_append_(l, x)` when `l->prev` is `la`, field by field. -/
theorem list_append_effect (h : Heap) (l x la : NodeId) (hp : (h l).prev = some la) :
    ∃ h', list_append_ h (some l) (some x) = some (h', some l) ∧
      (∀ b, (h' b).next = if b = x then none else if b = la then some x else (h b).next) ∧
      (∀ b, (h' b).prev = if b = x then some la else if b = l then some x else (h b).prev) ∧
      (∀ b, (h' b).count = if b = l then ((h l).count + 1) % SIZE_MOD else (h b).count) := by
  refine ⟨_, by simp only [list_append_, hp]; rfl, ?_, ?_, ?_⟩
  · intro b; simp
  · intro b; simp
  · intro b; simp

/-- Appending a fresh node to a list whose `next` chain, `count` and tail
pointer are right extends the walk at its end and keeps the back links. -/
theorem list_append_walk (h : Heap) (l x : NodeId) (w : List NodeId)
    (hwalk : Walk h (some l) w) (hcount : (h l).count = w.length)
    (htail : (h l).prev = w.getLast?) (hx : x ∉ w) :
    ∃ h', list_append_ h (some l) (some x) = some (h', some l) ∧
      Walk h' (some l) (w ++ [x]) ∧ (h' l).count = w.length + 1 ∧
      (h' l).prev = some x ∧ (h' x).prev = w.getLast? ∧
      (∀ b, b ≠ x → b ≠ l → (h' b).prev = (h b).prev) ∧
      (∀ b, b ≠ x → some b ≠ w.getLast? → (h' b).next = (h b).next) ∧
      (∀ b, b ≠ l → (h' b).count = (h b).count) := by
  have hnd := hwalk.nodup
  have hlen := hwalk.length_lt hx
  obtain ⟨w', rfl⟩ := hwalk.head_eq
  obtain ⟨ini, la, hw⟩ : ∃ ini la, l :: w' = ini ++ [la] := by
    rcases List.eq_nil_or_concat (l :: w') with hnil | ⟨ini, la, hw⟩
    · cases hnil
    · exact ⟨ini, la, by rw [hw, List.concat_eq_append]⟩
  rw [hw] at hwalk hcount htail hx hnd hlen ⊢
  rw [List.getLast?_concat] at htail ⊢
  obtain ⟨h', hrun, hnext, hprev, hcnt⟩ := list_append_effect h l x la htail
  have hxla : la ≠ x := fun e => hx (by simp [e])
  have hla : la ∉ ini := by
    have := List.nodup_append.mp hnd
    intro hm
    exact this.2.2 hm (List.mem_singleton_self la) 
  obtain ⟨hseg, hlast⟩ := Seg.snoc_iff.mp hwalk
  have hxl : l ≠ x := by
    intro e
    apply hx
    rw [← hw, e]
    exact List.mem_cons_self _ _
  refine ⟨h', hrun, ?_, ?_, ?_, ?_, ?_, ?_, ?_⟩
  · refine Seg.snoc_iff.mpr ⟨Seg.snoc_iff.mpr ⟨?_, ?_⟩, ?_⟩
    · refine Seg.congr_next (fun a ha => ?_) hseg
      have h1 : a ≠ x := fun e => hx (by simp [← e, ha])
      have h2 : a ≠ la := fun e => hla (e ▸ ha)
      rw [hnext, if_neg h1, if_neg h2]
    · rw [hnext, if_neg hxla, if_pos rfl]
    · rw [hnext, if_pos rfl]
  · rw [hcnt, if_pos rfl, hcount]
    have hmax : MAX_NODES < SIZE_MOD := by decide
    exact Nat.mod_eq_of_lt (by omega)
  · rw [hprev, if_neg hxl, if_pos rfl]
  · rw [hprev, if_pos rfl]
  · intro b h1 h2
    rw [hprev, if_neg h1, if_neg h2]
  · intro b h1 h2
    rw [hnext, if_neg h1, if_neg (fun e => h2 (by rw [e]))]
  · intro b h1
    rw [hcnt, if_neg h1]

/-- Appending a fresh node keeps a well-formed list well-formed. -/
theorem WellFormed.append {h : Heap} {l x : NodeId} {w : List NodeId}
    (hwf : WellFormed h l w) (hx : x ∉ w) :
    ∃ h', list_append_ h (some l) (some x) = some (h', some l) ∧ WellFormed h' l (w ++ [x]) := by
  obtain ⟨h', hrun, hwalk, hcnt, htl, hxp, hfp, -, -⟩ :=
    list_append_walk h l x w hwf.walk hwf.count hwf.tail hx
  refine ⟨h', hrun, hwalk, ?_, ?_, ?_⟩
  · simp [hcnt]
  · simp [htl]
  · have hnd := hwf.walk.nodup
    obtain ⟨w', rfl⟩ := hwf.walk.head_eq
    have hl : l ∉ w' := (List.nodup_cons.mp hnd).1
    have hlinks : PrevOk h l w' := hwf.links
    show PrevOk h' l (w' ++ [x])
    refine PrevOk.prev_snoc_iff.mpr ⟨PrevOk.congr_prev (fun a ha => ?_) hlinks, hxp⟩
    exact hfp a (fun e => hx (by simp [← e, ha])) (fun e => hl (e ▸ ha))

/-! ## Effect of `list_remove_` -/

theorem Walk.length_le {h : Heap} {p : Ptr} {w : List NodeId} (hw : Walk h p w) :
    w.length ≤ MAX_NODES := by
  have hlen := hw.nodup.length_le_card
  rw [Fintype.card_fin] at hlen
  exact hlen

theorem count_pred (n : Nat) (h1 : 1 ≤ n) (h2 : n ≤ MAX_NODES) :
    (n + SIZE_MOD - 1) % SIZE_MOD = n - 1 := by
  have hmax : MAX_NODES < SIZE_MOD := by decide
  have e : n + SIZE_MOD - 1 = (n - 1) + SIZE_MOD := by omega
  rw [e, Nat.add_mod_right]
  exact Nat.mod_eq_of_lt (by omega)

/-- Removing the only node of a one-element list gives the absent list and
writes nothing. -/
theorem list_remove_single (h : Heap) (l : NodeId) (hn : (h l).next = none) :
    list_remove_ h (some l) (some l) = some (h, none) := by
  simp [list_remove_, hn]

/-- The heap after removing the head `l` whose successor is `n2`, field by field. -/
theorem list_remove_head_effect (h : Heap) (l n2 : NodeId) (hn : (h l).next = some n2) :
    ∃ h', list_remove_ h (some l) (some l) = some (h', some n2) ∧
      (∀ b, (h' b).next = (h b).next) ∧
      (∀ b, (h' b).prev = if b = n2 then (h l).prev else (h b).prev) ∧
      (∀ b, (h' b).count =
        if b = n2 then ((if l = n2 then (h l).count else (h l).count) + SIZE_MOD - 1) % SIZE_MOD
        else (h b).count) := by
  refine ⟨_, by simp only [list_remove_, hn, if_true]; rfl, ?_, ?_, ?_⟩
  · intro b; simp
  · intro b; simp
  · intro b; simp

/-- Removing the head of a well-formed list with at least two nodes. -/
theorem WellFormed.remove_first {h : Heap} {l n2 : NodeId} {w : List NodeId}
    (hwf : WellFormed h l (l :: n2 :: w)) :
    ∃ h', list_remove_ h (some l) (some l) = some (h', some n2) ∧
      WellFormed h' n2 (n2 :: w) ∧ (h' n2).prev = (h l).prev := by
  have hnd := hwf.walk.nodup
  have hlen := hwf.walk.length_le
  have hnext : (h l).next = some n2 := hwf.walk.2.1
  obtain ⟨h', hrun, hnx, hpv, hct⟩ := list_remove_head_effect h l n2 hnext
  refine ⟨h', hrun, ⟨?_, ?_, ?_, ?_⟩, ?_⟩
  · refine Seg.congr_next (fun a _ => hnx a) ?_
    have := hwf.walk.2
    rw [hnext] at this
    exact this
  · rw [hct, if_pos rfl, ite_self, hwf.count, count_pred _ (by simp) hlen]
    simp
  · rw [hpv, if_pos rfl, hwf.tail, List.getLast?_cons_cons]
  · have hl : PrevOk h l (n2 :: w) := hwf.links
    show PrevOk h' n2 w
    refine PrevOk.congr_prev (fun a ha => ?_) hl.2
    have : a ≠ n2 := by
      intro e
      have h1 := (List.nodup_cons.mp (List.nodup_cons.mp hnd).2).1
      exact h1 (e ▸ ha)
    rw [hpv, if_neg this]
  · rw [hpv, if_pos rfl]

/-- The heap after removing a non-head node `x` whose `prev` is `p`, field by
field, when `x` is neither its own predecessor nor the predecessor of the head. -/
theorem list_remove_inner_effect (h : Heap) (l x p : NodeId) (hxl : x ≠ l)
    (hp : (h x).prev = some p) (hxp : x ≠ p) (hln : (h x).next ≠ some l) :
    ∃ h', list_remove_ h (some l) (some x) = some (h', some l) ∧
      (∀ b, (h' b).next = if b = p then (h x).next else (h b).next) ∧
      (∀ b, (h' b).prev =
        if b = l ∧ (h l).prev = some x then some p
        else if (h x).next = some b then some p else (h b).prev) ∧
      (∀ b, (h' b).count =
        if b = l then ((h l).count + SIZE_MOD - 1) % SIZE_MOD else (h b).count) := by
  have hne : (some x : Ptr) ≠ some l := fun e => hxl (Option.some.inj e)
  by_cases ht : (h l).prev = some x
  · cases hnx : (h x).next with
    | none =>
      refine ⟨_, by simp only [list_remove_, if_neg hne, hp, setNext_next, if_neg hxp, hnx]; rfl,
        ?_, ?_, ?_⟩ <;> intro b <;> by_cases hb1 : b = l <;> simp [ht, hp, hb1]
    | some n =>
      have hnl : l ≠ n := fun e => hln (by rw [hnx, e])
      refine ⟨_, by simp only [list_remove_, if_neg hne, hp, setNext_next, if_neg hxp, hnx]; rfl,
        ?_, ?_, ?_⟩ <;> intro b <;> by_cases hb1 : b = l <;> by_cases hb2 : b = n <;>
        simp [ht, hp, hb1, hb2, hnl, Ne.symm hnl, @eq_comm _ n b]
  · have ht' : ¬ some x = (h l).prev := fun e => ht e.symm
    cases hnx : (h x).next with
    | none =>
      refine ⟨_, by simp only [list_remove_, if_neg hne, hp, setNext_next, if_neg hxp, hnx]; rfl,
        ?_, ?_, ?_⟩ <;> intro b <;> by_cases hb1 : b = l <;> simp [ht, ht', hp, hb1]
    | some n =>
      have hnl : l ≠ n := fun e => hln (by rw [hnx, e])
      refine ⟨_, by simp only [list_remove_, if_neg hne, hp, setNext_next, if_neg hxp, hnx]; rfl,
        ?_, ?_, ?_⟩ <;> intro b <;> by_cases hb1 : b = l <;> by_cases hb2 : b = n <;>
        simp [ht, ht', hp, hb1, hb2, hnl, Ne.symm hnl, @eq_comm _ n b]

theorem getLast_of_getLast? {w : List NodeId} {p : NodeId} (hne : w ≠ [])
    (hl : w.getLast? = some p) : w.getLast hne = p := by
  rw [List.getLast?_eq_getLast w hne] at hl
  exact Option.some.inj hl

/-- Removing a non-head node of a well-formed list splices it out. -/
theorem WellFormed.remove_inner {h : Heap} {l x : NodeId} {s t : List NodeId}
    (hwf : WellFormed h l (l :: s ++ x :: t)) :
    ∃ h', list_remove_ h (some l) (some x) = some (h', some l) ∧
      WellFormed h' l (l :: s ++ t) := by
  have hnd : ((l :: s) ++ x :: t).Nodup := hwf.walk.nodup
  have hlen := hwf.walk.length_le
  obtain ⟨s0, p, hs⟩ : ∃ s0 p, l :: s = s0 ++ [p] := by
    rcases List.eq_nil_or_concat (l :: s) with hnil | ⟨s0, p, hs⟩
    · cases hnil
    · exact ⟨s0, p, by rw [hs, List.concat_eq_append]⟩
  have hlast : (l :: s).getLast? = some p := by rw [hs, List.getLast?_concat]
  have hlast' : (l :: s).getLast (List.cons_ne_nil l s) = p := getLast_of_getLast? _ hlast
  have hlinks : PrevOk h l (s ++ x :: t) := hwf.links
  obtain ⟨hl1, hl2⟩ := PrevOk.prev_append_iff.mp hlinks
  rw [hlast'] at hl2
  have hp : (h x).prev = some p := hl2.1
  obtain ⟨hnd1, hnd2, hdisj⟩ := List.nodup_append.mp hnd
  have hx_not : x ∉ l :: s := fun hm => hdisj hm (List.mem_cons_self _ _)
  have hxt : x ∉ t := (List.nodup_cons.mp hnd2).1
  have hpmem : p ∈ l :: s := by rw [hs]; simp
  have hxl : x ≠ l := fun e => hx_not (by simp [e])
  have hxp : x ≠ p := fun e => hx_not (e ▸ hpmem)
  have hwalk : Seg h (some l) ((l :: s) ++ x :: t) none := hwf.walk
  obtain ⟨m, hw1, hw2⟩ := Seg.split_iff.mp hwalk
  have hm : m = some x := hw2.1
  subst hm
  have hw3 : Seg h (h x).next t none := hw2.2
  rw [hs] at hw1
  obtain ⟨hw4, -⟩ := Seg.snoc_iff.mp hw1
  have hnext_mem : ∀ a, (h x).next = some a → a ∈ t := by
    intro a ha
    cases t with
    | nil => rw [ha] at hw3; cases (hw3 : some a = none)
    | cons n t' =>
      rw [ha] at hw3
      have : some a = some n := hw3.1
      cases this
      exact List.mem_cons_self _ _
  have hln : (h x).next ≠ some l := fun e =>
    hdisj (List.mem_cons_self _ _) (List.mem_cons_of_mem _ (hnext_mem l e))
  obtain ⟨h', hrun, hnx, hpv, hct⟩ := list_remove_inner_effect h l x p hxl hp hxp hln
  refine ⟨h', hrun, ?_, ?_, ?_, ?_⟩
  · show Seg h' (some l) ((l :: s) ++ t) none
    rw [hs]
    refine Seg.split_iff.mpr ⟨(h x).next, Seg.snoc_iff.mpr ⟨?_, ?_⟩, ?_⟩
    · refine Seg.congr_next (fun a ha => ?_) hw4
      have hap : a ≠ p := by
        rw [hs] at hnd1
        intro e
        exact (List.nodup_append.mp hnd1).2.2 ha (by simp [e])
      rw [hnx, if_neg hap]
    · rw [hnx, if_pos rfl]
    · refine Seg.congr_next (fun a ha => ?_) hw3
      have hap : a ≠ p := fun e => hdisj hpmem (List.mem_cons_of_mem _ (e ▸ ha))
      rw [hnx, if_neg hap]
  · rw [hct, if_pos rfl, hwf.count, count_pred _ (by simp) hlen]
    simp
    omega
  · have htl := hwf.tail
    rw [hpv]
    cases t with
    | nil =>
      have : (h l).prev = some x := by
        rw [htl]
        exact List.getLast?_concat (l :: s)
      rw [if_pos ⟨rfl, this⟩, List.append_nil, hlast]
    | cons n t' =>
      have e1 : (l :: s ++ x :: n :: t').getLast? = (n :: t').getLast? := by
        rw [List.getLast?_append_cons (l :: s) x (n :: t'), List.getLast?_cons_cons]
      have e2 : (l :: s ++ n :: t').getLast? = (n :: t').getLast? :=
        List.getLast?_append_cons (l :: s) n t'
      rw [e1] at htl
      have hne : ¬ (l = l ∧ (h l).prev = some x) := by
        rintro ⟨-, e⟩
        rw [htl] at e
        exact hxt (List.mem_of_getLast?_eq_some e)
      have hne2 : ¬ (h x).next = some l := hln
      rw [if_neg hne, if_neg hne2, htl, e2]
  · show PrevOk h' l (s ++ t)
    refine PrevOk.prev_append_iff.mpr ⟨PrevOk.congr_prev (fun a ha => ?_) hl1, ?_⟩
    · have hal : a ≠ l := fun e => (List.nodup_cons.mp hnd1).1 (e ▸ ha)
      have han : ¬ (h x).next = some a := fun e =>
        hdisj (List.mem_cons_of_mem _ ha) (List.mem_cons_of_mem _ (hnext_mem a e))
      rw [hpv, if_neg (fun c => hal c.1), if_neg han]
    · rw [hlast']
      cases t with
      | nil => trivial
      | cons n t' =>
        have hxn : (h x).next = some n := hw3.1.trans rfl
        have hnl : n ≠ l := fun e =>
          hdisj (List.mem_cons_self _ _) (by rw [← e]; simp)
        refine ⟨?_, PrevOk.congr_prev (fun a ha => ?_) hl2.2.2⟩
        · rw [hpv, if_neg (fun c => hnl c.1), if_pos hxn]
        · have hal : a ≠ l := fun e =>
            hdisj (List.mem_cons_self _ _) (by rw [← e]; simp [ha])
          have han : ¬ (h x).next = some a := by
            rw [hxn]
            intro e
            have : n = a := Option.some.inj e
            have hnd3 := (List.nodup_cons.mp (List.nodup_cons.mp hnd2).2).1
            exact hnd3 (this ▸ ha)
          rw [hpv, if_neg (fun c => hal c.1), if_neg han]

/-- Removing a node of a well-formed list: the call returns, the result is
absent exactly for a one-element list, and what is left is the well-formed list
of the other nodes in their order. -/
theorem WellFormed.remove {h : Heap} {l x : NodeId} {w : List NodeId}
    (hwf : WellFormed h l w) (hx : x ∈ w) :
    ∃ h' r, list_remove_ h (some l) (some x) = some (h', r) ∧ (r = none ↔ w = [x]) ∧
      (r = none → w.erase x = []) ∧ (∀ l', r = some l' → WellFormed h' l' (w.erase x)) := by
  obtain ⟨w', rfl⟩ := hwf.walk.head_eq
  by_cases hxl : x = l
  · subst hxl
    cases w' with
    | nil =>
      have hn : (h x).next = none := hwf.walk.2
      exact ⟨h, none, list_remove_single h x hn, by simp, by simp, fun l' e => by cases e⟩
    | cons n2 w'' =>
      obtain ⟨h', hrun, hwf', -⟩ := hwf.remove_first
      refine ⟨h', some n2, hrun, by simp, by simp, fun l' e => ?_⟩
      cases e
      simpa using hwf'
  · have hxw' : x ∈ w' := by
      rcases List.mem_cons.mp hx with e | e
      · exact absurd e hxl
      · exact e
    obtain ⟨s, t, rfl⟩ := List.append_of_mem hxw'
    have hnd : ((l :: s) ++ x :: t).Nodup := hwf.walk.nodup
    have hxs : x ∉ l :: s := fun hm =>
      (List.nodup_append.mp hnd).2.2 hm (List.mem_cons_self _ _)
    obtain ⟨h', hrun, hwf'⟩ := hwf.remove_inner
    have herase : (l :: (s ++ x :: t)).erase x = l :: s ++ t := by
      show ((l :: s) ++ x :: t).erase x = (l :: s) ++ t
      rw [List.erase_append_right _ hxs, List.erase_cons_head]
    refine ⟨h', some l, hrun, ?_, by simp, fun l' e => ?_⟩
    · constructor
      · intro e; cases e
      · intro e
        exfalso
        have := congrArg List.length e
        simp at this
    · cases e
      rw [herase]
      exact hwf'

/-! ## Sequences of calls keep the list well-formed -/

theorem WellFormed.congr_heap {h h' : Heap} {l : NodeId} {w : List NodeId}
    (hwf : WellFormed h l w) (heq : ∀ a ∈ w, h' a = h a) : WellFormed h' l w := by
  obtain ⟨w', rfl⟩ := hwf.walk.head_eq
  have hl : h' l = h l := heq l (List.mem_cons_self _ _)
  refine ⟨Seg.congr_next (fun a ha => by rw [heq a ha]) hwf.walk, ?_, ?_, ?_⟩
  · rw [hl]; exact hwf.count
  · rw [hl]; exact hwf.tail
  · exact PrevOk.congr_prev (fun a ha => by rw [heq a (List.mem_cons_of_mem _ ha)]) hwf.links

theorem WellFormed.singleton (h : Heap) (x : NodeId) :
    ∃ h1, list_init_ h (some x) = some h1 ∧ WellFormed h1 x [x] ∧ h1 x = ⟨1, some x, none⟩ ∧
      ∀ b, b ≠ x → h1 b = h b := by
  refine ⟨_, rfl, ⟨⟨rfl, ?_⟩, ?_, ?_, trivial⟩, ?_, ?_⟩
  · show (setNext _ x none x).next = none
    simp
  · simp
  · simp
  · simp [setNext, setPrev, setCount]
  · intro b hb
    simp [setNext, setPrev, setCount, hb]

theorem ListInv.step {h : Heap} {p : Ptr} {w : List NodeId} (hinv : ListInv h p w) (op : Op)
    (ops : List Op) (hlegal : Legal (op :: ops) w) :
    ∃ h' p' w', step (h, p) op = some (h', p') ∧ ListInv h' p' w' ∧
      contents (op :: ops) w = contents ops w' ∧ Legal ops w' := by
  cases op with
  | init x adopt =>
    obtain ⟨hx, hrest⟩ := hlegal
    obtain ⟨h1, hrun, hwf1, -, hframe⟩ := WellFormed.singleton h x
    refine ⟨h1, if adopt then some x else p, if adopt then [x] else w, ?_, ?_, rfl, hrest⟩
    · simp only [Intrlist.step, hrun]
    · cases adopt with
      | true => exact hwf1
      | false =>
        cases p with
        | none => exact hinv
        | some l =>
          have hwf : WellFormed h l w := hinv
          exact hwf.congr_heap (fun a ha => hframe a (fun e => hx (e ▸ ha)))
  | append x =>
    obtain ⟨hx, hrest⟩ := hlegal
    cases p with
    | none =>
      obtain ⟨h1, hrun, hwf1, -, -⟩ := WellFormed.singleton h x
      have hw : w = [] := hinv
      subst hw
      refine ⟨h1, some x, [x], ?_, hwf1, rfl, hrest⟩
      simp only [Intrlist.step, list_append_, hrun]
    | some l =>
      have hwf : WellFormed h l w := hinv
      obtain ⟨h', hrun, hwf'⟩ := hwf.append hx
      exact ⟨h', some l, w ++ [x], hrun, hwf', rfl, hrest⟩
  | remove x =>
    obtain ⟨hx, hrest⟩ := hlegal
    cases p with
    | none =>
      have hw : w = [] := hinv
      subst hw
      cases hx
    | some l =>
      have hwf : WellFormed h l w := hinv
      obtain ⟨h', r, hrun, -, hnone, hsome⟩ := hwf.remove hx
      refine ⟨h', r, w.erase x, hrun, ?_, rfl, hrest⟩
      cases r with
      | none => exact hnone rfl
      | some l' => exact hsome l' rfl

/-- Every contract-respecting sequence of calls runs to completion and leaves
the list in the state described by `contents`. -/
theorem ListInv.run : ∀ (ops : List Op) {h : Heap} {p : Ptr} {w : List NodeId},
    ListInv h p w → Legal ops w →
    ∃ h' p', run ops (h, p) = some (h', p') ∧ ListInv h' p' (contents ops w)
  | [], h, p, w, hinv, _ => ⟨h, p, rfl, hinv⟩
  | op :: ops, h, p, w, hinv, hlegal => by
    obtain ⟨h1, p1, w1, hstep, hinv1, hc, hl1⟩ := hinv.step op ops hlegal
    obtain ⟨h2, p2, hrun, hinv2⟩ := ListInv.run ops hinv1 hl1
    refine ⟨h2, p2, ?_, hc ▸ hinv2⟩
    simp only [Intrlist.run, hstep, hrun]

theorem ListInv.walk {h : Heap} {p : Ptr} {w : List NodeId} (hinv : ListInv h p w) :
    Walk h p w := by
  cases p with
  | none =>
    have hw : w = [] := hinv
    subst hw
    exact rfl
  | some l => exact WellFormed.walk hinv

/-! ## The loops of `list_sort_` -/

/-- The gather loop writes the walk, in walk order, when the buffer has room. -/
theorem gather_walk {h : Heap} : ∀ {w : List NodeId} {p : Ptr} (room : Nat) (buf : List NodeId),
    Walk h p w → w.length ≤ room → gather h room p buf = some (buf ++ w)
  | [], p, room, buf, hw, _ => by
    have e : p = none := hw
    subst e
    cases room <;> simp [gather]
  | a :: w, p, room, buf, hw, hroom => by
    have e : p = some a := hw.1
    subst e
    cases room with
    | zero => simp at hroom
    | succ r =>
      have := gather_walk r (buf ++ [a]) hw.2 (by simpa using hroom)
      simp only [gather, this, List.append_assoc, List.singleton_append]

theorem capacity_eq (n : Nat) (hn : n ≤ MAX_NODES) : (8 * n % SIZE_MOD) / 8 = n := by
  have h1 : MAX_NODES = 768614336404564650 := rfl
  have h2 : SIZE_MOD = 18446744073709551616 := rfl
  rw [h2]
  omega

theorem toInt_pred (n : Nat) (h1 : 1 ≤ n) (h2 : n ≤ 2147483648) :
    toInt ((n + SIZE_MOD - 1) % SIZE_MOD) = (n : Int) - 1 := by
  have hmax : MAX_NODES = 768614336404564650 := rfl
  rw [count_pred n h1 (by omega)]
  unfold toInt
  have e : (n - 1) % 4294967296 = n - 1 := Nat.mod_eq_of_lt (by omega)
  rw [e, if_pos (by omega)]
  omega

/-- The re-link loop, when the entries it reads are `items` in order: it
appends them one by one and stops at `stop`. -/
theorem relink_items (buf : List NodeId) (stop inc : Int) (hinc : inc = 1 ∨ inc = -1) :
    ∀ (items done : List NodeId) (h : Heap) (l : NodeId) (tests : Nat) (i : Int),
      stop = i + inc * items.length →
      INT_MIN ≤ i → i ≤ INT_MAX → INT_MIN ≤ stop → stop ≤ INT_MAX →
      (∀ k, k < items.length → index buf (i + inc * k) = items[k]?) →
      WellFormed h l done → (done ++ items).Nodup → items.length + 1 ≤ tests →
      ∃ h', relink buf stop inc tests h (some l) i = some (h', some l) ∧
        WellFormed h' l (done ++ items)
  | [], done, h, l, tests, i, hstop, _, _, _, _, _, hwf, _, htests => by
    cases tests with
    | zero => simp at htests
    | succ t =>
      refine ⟨h, ?_, by simpa using hwf⟩
      have : i = stop := by simp [hstop]
      simp only [relink, if_pos this]
  | x :: items, done, h, l, tests, i, hstop, hi1, hi2, hs1, hs2, hidx, hwf, hnd, htests => by
    cases tests with
    | zero => simp at htests
    | succ t =>
      have hlen : ((x :: items).length : Int) = items.length + 1 := by simp
      have hne : ¬ i = stop := by
        rw [hstop, hlen]
        rcases hinc with e | e <;> subst e <;> omega
      have hx : x ∉ done := by
        intro hm
        exact (List.nodup_append.mp hnd).2.2 hm (List.mem_cons_self _ _)
      obtain ⟨h1, hrun, hwf1⟩ := hwf.append hx
      have hi0 : index buf i = some x := by
        have := hidx 0 (by simp)
        simpa using this
      have hadd : addInt i inc = some (i + inc) := by
        unfold addInt
        rw [if_pos]
        rw [hstop, hlen] at hs1 hs2
        have hmin : INT_MIN = -2147483648 := rfl
        have hmax : INT_MAX = 2147483647 := rfl
        rcases hinc with e | e <;> subst e <;> omega
      have hmin : INT_MIN = -2147483648 := rfl
      have hmax : INT_MAX = 2147483647 := rfl
      obtain ⟨h', hrun', hwf'⟩ := relink_items buf stop inc hinc items (done ++ [x]) h1 l t
        (i + inc)
        (by rw [hstop, hlen]; ring)
        (by rw [hstop, hlen] at hs1 hs2; rcases hinc with e | e <;> subst e <;> omega)
        (by rw [hstop, hlen] at hs1 hs2; rcases hinc with e | e <;> subst e <;> omega)
        hs1 hs2
        (fun k hk => by
          have := hidx (k + 1) (by simpa using hk)
          rw [List.getElem?_cons_succ] at this
          rw [← this]
          congr 1
          push_cast
          ring)
        hwf1 (by simpa using hnd) (by simpa using htests)
      refine ⟨h', ?_, by simpa using hwf'⟩
      simp only [relink, if_neg hne, hi0, hrun, hadd, hrun']

/-- The bound on the loop tests of `relink` is never what stops it: once the
number of tests left covers the buffer entries still ahead of `i`, more tests
change nothing. -/
theorem relink_tests_enough (buf : List NodeId) (stop inc : Int) :
    ∀ (tests extra : Nat) (h : Heap) (nl : Ptr) (i : Int),
      (inc = 1 ∧ (buf.length : Int) - i + 1 ≤ tests) ∨ (inc = -1 ∧ i + 2 ≤ tests) →
      1 ≤ tests →
      relink buf stop inc (tests + extra) h nl i = relink buf stop inc tests h nl i
  | 0, _, _, _, _, _, h1 => by omega
  | t + 1, extra, h, nl, i, hm, _ => by
    have e : t + 1 + extra = (t + extra) + 1 := by omega
    rw [e]
    unfold relink
    by_cases hstop : i = stop
    · rw [if_pos hstop, if_pos hstop]
    · rw [if_neg hstop, if_neg hstop]
      cases hidx : index buf i with
      | none => rfl
      | some item =>
        dsimp only
        have hrange : 0 ≤ i ∧ i < buf.length := by
          unfold index at hidx
          split at hidx
          · rename_i h0
            refine ⟨h0, ?_⟩
            have := (List.getElem?_eq_some_iff.mp hidx).1
            omega
          · cases hidx
        cases list_append_ h nl (some item) with
        | none => rfl
        | some r =>
          obtain ⟨h1, nl1⟩ := r
          dsimp only
          cases hadd : addInt i inc with
          | none => rfl
          | some i1 =>
            dsimp only
            have hi1 : i1 = i + inc := by
              unfold addInt at hadd
              split at hadd
              · exact (Option.some.inj hadd).symm
              · cases hadd
            cases t with
            | zero =>
              exfalso
              rcases hm with ⟨-, hm⟩ | ⟨-, hm⟩ <;> omega
            | succ t' =>
              exact relink_tests_enough buf stop inc (t' + 1) extra h1 nl1 i1
                (by rcases hm with ⟨e1, hm⟩ | ⟨e1, hm⟩
                    · exact Or.inl ⟨e1, by rw [hi1, e1]; omega⟩
                    · exact Or.inr ⟨e1, by rw [hi1, e1]; omega⟩)
                (by omega)

/-! ## `list_sort_` on lists shorter than `2^31` -/

/-- The three stores that make `sortbuf[start]` a one-element list. -/
theorem sort_init_wf (h : Heap) (x : NodeId) :
    WellFormed (setPrev (setNext (setCount h x 1) x none) x (some x)) x [x] := by
  refine ⟨⟨rfl, ?_⟩, ?_, ?_, trivial⟩
  · show (setPrev _ x (some x) x).next = none
    simp
  · simp
  · simp

/-- The closing store `sortbuf[end]->next = NULL` on the last node of the walk
changes nothing. -/
theorem WellFormed.setNext_last {h : Heap} {l e : NodeId} {w : List NodeId}
    (hwf : WellFormed h l w) (he : w.getLast? = some e) : WellFormed (setNext h e none) l w := by
  obtain ⟨ini, rfl⟩ := List.getLast?_eq_some_iff.mp he
  have hnone : (h e).next = none := (Seg.snoc_iff.mp hwf.walk).2
  refine hwf.congr_heap (fun a _ => ?_)
  unfold setNext
  split
  · rename_i hae
    subst hae
    cases hh : h a with
    | mk c p n =>
      rw [hh] at hnone
      simp only at hnone
      rw [hnone]
  · rfl

theorem index_zero_cons (b : NodeId) (items : List NodeId) : index (b :: items) 0 = some b := by
  simp [index]

theorem index_succ_cons (b : NodeId) (items : List NodeId) (k : Nat) :
    index (b :: items) (1 + 1 * (k : Int)) = items[k]? := by
  unfold index
  have e : (1 + 1 * (k : Int)).toNat = k + 1 := by omega
  rw [if_pos (by omega), e, List.getElem?_cons_succ]

theorem index_last_concat (ini : List NodeId) (b : NodeId) :
    index (ini ++ [b]) ((ini.length : Int)) = some b := by
  unfold index
  rw [if_pos (by omega), Int.toNat_ofNat]
  simp

theorem index_rev_concat (ini : List NodeId) (b : NodeId) (k : Nat) (hk : k < ini.length) :
    index (ini ++ [b]) ((ini.length : Int) - 1 + -1 * (k : Int)) = ini.reverse[k]? := by
  unfold index
  have e : ((ini.length : Int) - 1 + -1 * (k : Int)).toNat = ini.length - 1 - k := by omega
  rw [if_pos (by omega), e, List.getElem?_append_left (by omega),
    List.getElem?_reverse hk]

theorem addInt_eq (a b : Int) (h1 : -2147483648 ≤ a + b) (h2 : a + b ≤ 2147483647) :
    addInt a b = some (a + b) := by
  unfold addInt
  rw [if_pos ⟨h1, h2⟩]

/-- On a list of fewer than `2^31` nodes (`2^31` when reversed), whose `next`
chain and `count` are right, `list_sort_` returns, and the list it returns is
well-formed with the sorted buffer (reversed, when `rev`) as its walk. -/
theorem list_sort_relinks (qsort : list_comp_func_t → List NodeId → List NodeId)
    (cmp : list_comp_func_t) (h : Heap) (l : NodeId) (w : List NodeId) (rev : Bool)
    (hwalk : Walk h (some l) w) (hcount : (h l).count = w.length)
    (hperm : (qsort cmp w).Perm w)
    (hn : w.length + (if rev then 0 else 1) ≤ 2147483648) :
    ∃ h' first, list_sort_ qsort h (some l) cmp rev = some (h', some first) ∧
      WellFormed h' first (if rev then (qsort cmp w).reverse else qsort cmp w) := by
  have hlenw := hwalk.length_le
  have hnd : (qsort cmp w).Nodup := hperm.nodup_iff.mpr hwalk.nodup
  have hlen : (qsort cmp w).length = w.length := hperm.length_eq
  obtain ⟨w', hw'⟩ := hwalk.head_eq
  have hpos : 1 ≤ w.length := by rw [hw']; simp
  have hg : gather h ((8 * (h l).count % SIZE_MOD) / 8) (some l) [] = some w := by
    rw [hcount, capacity_eq _ hlenw]
    simpa using gather_walk w.length [] hwalk (Nat.le_refl _)
  have hmin : INT_MIN = -2147483648 := rfl
  have hmax : INT_MAX = 2147483647 := rfl
  have hlast : toInt (((h l).count + SIZE_MOD - 1) % SIZE_MOD) = (w.length : Int) - 1 := by
    rw [hcount]
    refine toInt_pred _ hpos ?_
    cases rev <;> simp at hn <;> omega
  have hne : ¬ (w.length ≠ (h l).count) := by rw [hcount]; simp
  unfold list_sort_
  dsimp only
  rw [hg]
  dsimp only
  rw [if_neg hne, hlast]
  cases rev with
  | false =>
    simp only [Bool.false_eq_true, if_false] at hn ⊢
    obtain ⟨b0, items, hsb⟩ : ∃ b0 items, qsort cmp w = b0 :: items := by
      cases hq : qsort cmp w with
      | nil => rw [hq] at hlen; simp at hlen; omega
      | cons b0 items => exact ⟨b0, items, rfl⟩
    have hlen' : items.length + 1 = w.length := by rw [← hlen, hsb]; simp
    obtain ⟨h4, hrun, hwf4⟩ := relink_items (b0 :: items) (w.length : Int) 1 (Or.inl rfl) items
      [b0] _ b0 ((b0 :: items).length + 1) 1
      (by rw [← hlen']; push_cast; ring) (by omega) (by omega) (by omega) (by omega)
      (fun k _ => index_succ_cons b0 items k) (sort_init_wf h b0)
      (by rw [hsb] at hnd; simpa using hnd) (by simp)
    obtain ⟨e, he⟩ : ∃ e, (b0 :: items).getLast? = some e :=
      ⟨_, List.getLast?_eq_getLast _ (List.cons_ne_nil _ _)⟩
    have hie : index (b0 :: items) ((w.length : Int) - 1) = some e := by
      obtain ⟨ini, hini⟩ := List.getLast?_eq_some_iff.mp he
      have : (w.length : Int) - 1 = (ini.length : Int) := by
        have := congrArg List.length hini
        simp at this
        omega
      rw [this, hini]
      exact index_last_concat ini e
    refine ⟨setNext h4 e none, b0, ?_, ?_⟩
    · have ha1 : addInt 0 1 = some 1 := addInt_eq 0 1 (by omega) (by omega)
      have ha2 : addInt ((w.length : Int) - 1) 1 = some (w.length : Int) := by
        have e : (w.length : Int) - 1 + 1 = (w.length : Int) := by omega
        rw [addInt_eq _ _ (by omega) (by omega), e]
      rw [hsb, index_zero_cons, ha1, ha2]
      dsimp only
      rw [hrun]
      dsimp only
      rw [hie]
    · rw [hsb]
      exact (by simpa using hwf4 : WellFormed h4 b0 (b0 :: items)).setNext_last he
  | true =>
    rw [if_pos rfl] at hn
    rw [if_pos rfl, if_pos rfl, if_pos rfl, if_pos rfl]
    obtain ⟨ini, bl, hsb⟩ : ∃ ini bl, qsort cmp w = ini ++ [bl] := by
      rcases List.eq_nil_or_concat (qsort cmp w) with hq | ⟨ini, bl, hq⟩
      · rw [hq] at hlen; simp at hlen; omega
      · exact ⟨ini, bl, by rw [hq, List.concat_eq_append]⟩
    have hlen' : ini.length + 1 = w.length := by rw [← hlen, hsb]; simp
    have hstart : index (ini ++ [bl]) ((w.length : Int) - 1) = some bl := by
      have : (w.length : Int) - 1 = (ini.length : Int) := by omega
      rw [this]
      exact index_last_concat ini bl
    obtain ⟨h4, hrun, hwf4⟩ := relink_items (ini ++ [bl]) (-1) (-1) (Or.inr rfl) ini.reverse
      [bl] _ bl ((ini ++ [bl]).length + 1) ((ini.length : Int) - 1)
      (by simp only [List.length_reverse]; omega) (by omega) (by omega) (by omega) (by omega)
      (fun k hk => index_rev_concat ini bl k (by simpa using hk)) (sort_init_wf h bl)
      (by
        rw [hsb] at hnd
        have e : [bl] ++ ini.reverse = (ini ++ [bl]).reverse := by
          rw [List.reverse_append]; rfl
        rw [e]
        exact List.nodup_reverse.mpr hnd)
      (by simp)
    obtain ⟨e, he⟩ : ∃ e, (ini ++ [bl]).head? = some e := by
      cases ini with
      | nil => exact ⟨bl, rfl⟩
      | cons a ini' => exact ⟨a, rfl⟩
    have hie : index (ini ++ [bl]) 0 = some e := by
      cases hh : ini ++ [bl] with
      | nil => rw [hh] at he; cases he
      | cons a t =>
        rw [hh] at he
        cases he
        exact index_zero_cons _ _
    have hrevlast : ([bl] ++ ini.reverse).getLast? = some e := by
      have : [bl] ++ ini.reverse = (ini ++ [bl]).reverse := by
        rw [List.reverse_append]; rfl
      rw [this, List.getLast?_reverse, he]
    refine ⟨setNext h4 e none, bl, ?_, ?_⟩
    · have ha1 : addInt ((w.length : Int) - 1) (-1) = some ((ini.length : Int) - 1) := by
        have e : (w.length : Int) - 1 + -1 = (ini.length : Int) - 1 := by omega
        rw [addInt_eq _ _ (by omega) (by omega), e]
      have ha2 : addInt 0 (-1) = some (-1) := addInt_eq 0 (-1) (by omega) (by omega)
      rw [hsb, hstart, ha1, ha2]
      dsimp only
      rw [hrun]
      dsimp only
      rw [hie]
    · rw [hsb]
      have : (ini ++ [bl]).reverse = [bl] ++ ini.reverse := by
        rw [List.reverse_append]; rfl
      rw [this]
      exact hwf4.setNext_last hrevlast

/-! ## The array sort -/

theorem StrictWeakOrder.le_total {cmp : list_comp_func_t} (hc : StrictWeakOrder cmp)
    (a b : NodeId) : cmp a b ≤ 0 ∨ cmp b a ≤ 0 := by
  by_cases h1 : 0 < cmp a b
  · exact Or.inr (le_of_lt ((hc.swap a b).mp h1))
  · exact Or.inl (not_lt.mp h1)

theorem StrictWeakOrder.le_trans {cmp : list_comp_func_t} (hc : StrictWeakOrder cmp)
    (a b c : NodeId) (h1 : cmp a b ≤ 0) (h2 : cmp b c ≤ 0) : cmp a c ≤ 0 := by
  by_contra hcon
  have hca : cmp c a < 0 := (hc.swap a c).mp (not_le.mp hcon)
  rcases lt_or_eq_of_le h1 with h1 | h1
  · have hcb : cmp c b < 0 := hc.trans c a b hca h1
    have := (hc.swap b c).mpr hcb
    omega
  · rcases lt_or_eq_of_le h2 with h2 | h2
    · have hba : cmp b a < 0 := hc.trans b c a h2 hca
      have := (hc.swap a b).mpr hba
      omega
    · have := hc.equiv_trans a b c h1 h2
      omega

theorem insertion_qsort_contract : QsortContract insertion_qsort := by
  intro cmp hc buf
  refine ⟨List.perm_insertionSort _ buf, ?_⟩
  haveI : IsTotal NodeId (fun a b => cmp a b ≤ 0) := ⟨hc.le_total⟩
  haveI : IsTrans NodeId (fun a b => cmp a b ≤ 0) := ⟨hc.le_trans⟩
  exact List.sorted_insertionSort (fun a b => cmp a b ≤ 0) buf

/-- On a well-formed list of fewer than `2^31` nodes, `list_sort_` returns a
well-formed list of the same nodes in non-decreasing comparator order. -/
theorem list_sort_sorted (qsort : list_comp_func_t → List NodeId → List NodeId)
    (hq : QsortContract qsort) (cmp : list_comp_func_t) (hcmp : StrictWeakOrder cmp)
    (h : Heap) (l : NodeId) (w : List NodeId) (hwalk : Walk h (some l) w)
    (hcount : (h l).count = w.length) (hn : w.length < 2147483648) :
    ∃ h' first out, list_sort_ qsort h (some l) cmp false = some (h', some first) ∧
      WellFormed h' first out ∧ out.Perm w ∧ out.Pairwise (fun a b => cmp a b ≤ 0) := by
  obtain ⟨hperm, hsorted⟩ := hq cmp hcmp w
  obtain ⟨h', first, hrun, hwf⟩ :=
    list_sort_relinks qsort cmp h l w false hwalk hcount hperm
      (by rw [if_neg Bool.false_ne_true]; omega)
  exact ⟨h', first, qsort cmp w, hrun, by simpa using hwf, hperm, hsorted⟩

/-- On a well-formed list of at most `2^31` nodes, the reverse sort returns a
well-formed list of the same nodes in non-increasing comparator order. -/
theorem list_rsort_sorted (qsort : list_comp_func_t → List NodeId → List NodeId)
    (hq : QsortContract qsort) (cmp : list_comp_func_t) (hcmp : StrictWeakOrder cmp)
    (h : Heap) (l : NodeId) (w : List NodeId) (hwalk : Walk h (some l) w)
    (hcount : (h l).count = w.length) (hn : w.length ≤ 2147483648) :
    ∃ h' first out, list_sort_ qsort h (some l) cmp true = some (h', some first) ∧
      WellFormed h' first out ∧ out.Perm w ∧ out.Pairwise (fun a b => cmp b a ≤ 0) := by
  obtain ⟨hperm, hsorted⟩ := hq cmp hcmp w
  obtain ⟨h', first, hrun, hwf⟩ :=
    list_sort_relinks qsort cmp h l w true hwalk hcount hperm
      (by rw [if_pos rfl]; omega)
  refine ⟨h', first, (qsort cmp w).reverse, hrun, by simpa using hwf,
    (List.reverse_perm _).trans hperm, ?_⟩
  exact List.pairwise_reverse.mpr hsorted

/-! ## Lists of `2^31` nodes and more -/

theorem node_val (k : Nat) (hk : k < MAX_NODES) : (node k).val = k :=
  Nat.mod_eq_of_lt hk

theorem chain_seg (n : Nat) (hn : n ≤ MAX_NODES) : ∀ (m k : Nat), k + m = n →
    Walk (chainHeap n) (if k < n then some (node k) else none) ((List.range' k m).map node)
  | 0, k, hk => by
    have : ¬ k < n := by omega
    rw [if_neg this]
    rfl
  | m + 1, k, hk => by
    have hlt : k < n := by omega
    rw [if_pos hlt]
    refine ⟨rfl, ?_⟩
    have ih := chain_seg n hn m (k + 1) (by omega)
    have hv : (node k).val = k := node_val k (by omega)
    have : (chainHeap n (node k)).next = if k + 1 < n then some (node (k + 1)) else none := by
      show (if (node k).val + 1 < n then some (node ((node k).val + 1)) else none) = _
      rw [hv]
    rw [this]
    exact ih

theorem chain_prev (n : Nat) (hn : n ≤ MAX_NODES) : ∀ (m k : Nat), 1 ≤ k → k + m ≤ n →
    PrevOk (chainHeap n) (node (k - 1)) ((List.range' k m).map node)
  | 0, _, _, _ => trivial
  | m + 1, k, hk1, hk => by
    have hv : (node k).val = k := node_val k (by omega)
    refine ⟨?_, ?_⟩
    · show (if (node k).val = 0 then some (node (n - 1)) else some (node ((node k).val - 1))) = _
      rw [hv, if_neg (by omega)]
    · have ih := chain_prev n hn m (k + 1) (by omega) (by omega)
      simpa using ih

/-- The chain of `n` nodes is a well-formed list. -/
theorem chain_wf (n : Nat) (h1 : 1 ≤ n) (hn : n ≤ MAX_NODES) :
    WellFormed (chainHeap n) (node 0) (chainWalk n) := by
  obtain ⟨m, rfl⟩ : ∃ m, n = m + 1 := ⟨n - 1, by omega⟩
  refine ⟨?_, ?_, ?_, ?_⟩
  · have := chain_seg (m + 1) hn (m + 1) 0 (by omega)
    rw [if_pos (by omega)] at this
    exact this
  · simp [chainWalk, chainHeap]
  · have hv : (node 0).val = 0 := node_val 0 (by omega)
    have e1 : (chainHeap (m + 1) (node 0)).prev = some (node m) := by
      show (if (node 0).val = 0 then some (node (m + 1 - 1))
        else some (node ((node 0).val - 1))) = _
      rw [if_pos hv]
      rfl
    have e2 : chainWalk (m + 1) = (List.range' 0 m).map node ++ [node m] := by
      unfold chainWalk
      rw [List.range'_1_concat, List.map_append]
      simp
    rw [e1, e2, List.getLast?_concat]
  · have e : (chainWalk (m + 1)).tail = (List.range' 1 m).map node := by
      unfold chainWalk
      rw [List.range'_succ]
      rfl
    rw [e]
    exact chain_prev (m + 1) hn m 1 (by omega) (by omega)

theorem chainWalk_length (n : Nat) : (chainWalk n).length = n := by
  simp [chainWalk]

/-- Counting upward from an index above `stop`, the re-link loop never meets
its exit test: it leaves the buffer or overflows `i`. -/
theorem relink_up_none (buf : List NodeId) (stop : Int) :
    ∀ (tests : Nat) (h : Heap) (nl : Ptr) (i : Int), stop < i →
      relink buf stop 1 tests h nl i = none
  | 0, _, _, _, _ => rfl
  | t + 1, h, nl, i, hi => by
    have hne : ¬ i = stop := by omega
    unfold relink
    rw [if_neg hne]
    cases index buf i with
    | none => rfl
    | some item =>
      dsimp only
      cases list_append_ h nl (some item) with
      | none => rfl
      | some r =>
        obtain ⟨h1, nl1⟩ := r
        dsimp only
        cases hadd : addInt i 1 with
        | none => rfl
        | some i1 =>
          dsimp only
          have : i1 = i + 1 := by
            unfold addInt at hadd
            split at hadd
            · exact (Option.some.inj hadd).symm
            · cases hadd
          exact relink_up_none buf stop t h1 nl1 i1 (by omega)

theorem toInt_two_pow_31 : toInt ((2147483649 + SIZE_MOD - 1) % SIZE_MOD) = -2147483648 := by
  unfold toInt
  norm_num

theorem list_sort_overflow_aux (qsort : list_comp_func_t → List NodeId → List NodeId)
    (cmp : list_comp_func_t) (h : Heap) (l : NodeId) (hc : (h l).count = 2147483649)
    (rev : Bool) (hrev : rev = false) : list_sort_ qsort h (some l) cmp rev = none := by
  have hr : ¬ rev = true := by rw [hrev]; exact Bool.false_ne_true
  unfold list_sort_
  dsimp only
  rw [hc, toInt_two_pow_31]
  cases gather h (8 * 2147483649 % SIZE_MOD / 8) (some l) [] with
  | none => rfl
  | some buf =>
    dsimp only
    by_cases hb : buf.length ≠ 2147483649
    · rw [if_pos hb]
    · rw [if_neg hb, if_neg hr, if_neg hr, if_neg hr]
      cases index (qsort cmp buf) 0 with
      | none => rfl
      | some nl =>
        dsimp only
        rw [addInt_eq 0 1 (by omega) (by omega), addInt_eq (-2147483648) 1 (by omega) (by omega)]
        dsimp only
        rw [relink_up_none _ _ _ _ _ _ (by omega)]

theorem list_rsort_overflow_aux (qsort : list_comp_func_t → List NodeId → List NodeId)
    (cmp : list_comp_func_t) (h : Heap) (l : NodeId) (hc : (h l).count = 2147483649)
    (rev : Bool) (hrev : rev = true) : list_sort_ qsort h (some l) cmp rev = none := by
  unfold list_sort_
  dsimp only
  rw [hc, toInt_two_pow_31]
  cases gather h (8 * 2147483649 % SIZE_MOD / 8) (some l) [] with
  | none => rfl
  | some buf =>
    dsimp only
    by_cases hb : buf.length ≠ 2147483649
    · rw [if_pos hb]
    · have hi : index (qsort cmp buf) (if rev = true then -2147483648 else 0) = none := by
        rw [if_pos hrev]
        unfold index
        rw [if_neg (by omega)]
      rw [if_neg hb, hi]

/-- With `count = 2^31 + 1` the forward sort has undefined behaviour: `end` is
`(int)2^31`, which is negative, and the loop index overflows before it can
reach `end + 1`. -/
theorem list_sort_overflow (qsort : list_comp_func_t → List NodeId → List NodeId)
    (cmp : list_comp_func_t) (h : Heap) (l : NodeId) (hc : (h l).count = 2147483649) :
    list_sort_ qsort h (some l) cmp false = none :=
  list_sort_overflow_aux qsort cmp h l hc false rfl

/-- With `count = 2^31 + 1` the reverse sort has undefined behaviour: `start`
is `(int)2^31`, which is negative, and `sortbuf[start]` is outside the buffer. -/
theorem list_rsort_overflow (qsort : list_comp_func_t → List NodeId → List NodeId)
    (cmp : list_comp_func_t) (h : Heap) (l : NodeId) (hc : (h l).count = 2147483649) :
    list_sort_ qsort h (some l) cmp true = none :=
  list_rsort_overflow_aux qsort cmp h l hc true rfl

/-! ## Building a list by appending, and walking it backward -/

theorem makeList_loop_wf : ∀ (as : List NodeId) (h : Heap) (l : NodeId) (w : List NodeId),
    WellFormed h l w → (w ++ as).Nodup →
    ∃ h', makeList_loop as (h, some l) = some (h', some l) ∧ WellFormed h' l (w ++ as)
  | [], h, l, w, hwf, _ => ⟨h, rfl, by simpa using hwf⟩
  | a :: as, h, l, w, hwf, hnd => by
    have ha : a ∉ w := fun hm =>
      (List.nodup_append.mp hnd).2.2 hm (List.mem_cons_self _ _)
    obtain ⟨h1, hrun1, hwf1⟩ := hwf.append ha
    obtain ⟨h', hrun, hwf'⟩ := makeList_loop_wf as h1 l (w ++ [a]) hwf1 (by simpa using hnd)
    refine ⟨h', ?_, by simpa using hwf'⟩
    simp only [makeList_loop, hrun1, hrun]

theorem backWalk_extend {h : Heap} {head : NodeId} : ∀ (w : List NodeId) (p : NodeId)
    (R : List NodeId), BackWalk h head (some p) (p :: R) → PrevOk h p w → head ∉ w →
    ∃ t, (p :: w).getLast? = some t ∧ BackWalk h head (some t) (w.reverse ++ p :: R)
  | [], p, R, hb, _, _ => ⟨p, rfl, by simpa using hb⟩
  | q :: w, p, R, hb, hp, hh => by
    have hq : q ≠ head := fun e => hh (by simp [e])
    have hb' : BackWalk h head (some q) (q :: p :: R) := by
      refine ⟨rfl, hq, ?_⟩
      rw [hp.1]
      exact hb
    obtain ⟨t, ht, hbw⟩ := backWalk_extend w q (p :: R) hb' hp.2
      (fun hm => hh (List.mem_cons_of_mem _ hm))
    refine ⟨t, by rw [List.getLast?_cons_cons]; exact ht, ?_⟩
    simpa using hbw

/-- In a well-formed list the backward walk from the tail is the reverse of
the forward walk. -/
theorem WellFormed.backWalk {h : Heap} {l : NodeId} {w : List NodeId}
    (hwf : WellFormed h l w) : BackWalk h l (h l).prev w.reverse := by
  have hnd := hwf.walk.nodup
  obtain ⟨w', rfl⟩ := hwf.walk.head_eq
  obtain ⟨t, ht, hb⟩ := backWalk_extend w' l [] ⟨rfl, rfl⟩ hwf.links (List.nodup_cons.mp hnd).1
  rw [hwf.tail, ht]
  simpa using hb

/-! ## The sort tests -/

/-- On the list of `test_listSort`, keys `[1,5,4,7,2]`, the sort gives the keys
`[1,2,4,5,7]`. -/
theorem test_listSort :
    ∃ r r', makeList emptyHeap [0, 1, 2, 3, 4] = some r ∧
      list_sort_ insertion_qsort r.1 r.2 sortData false = some r' ∧ r'.2 = some 0 ∧
      WellFormed r'.1 0 [0, 4, 2, 1, 3] ∧ [0, 4, 2, 1, 3].map testKey = [1, 2, 4, 5, 7] := by
  refine ⟨_, _, rfl, rfl, rfl, ?_, ?_⟩
  · decide
  · decide

/-- On the list of `test_listSortReverse`, keys `[1,5,4,7,2]`, the reverse sort
gives the keys `[7,5,4,2,1]`. -/
theorem test_listSortReverse :
    ∃ r r', makeList emptyHeap [0, 1, 2, 3, 4] = some r ∧
      list_sort_ insertion_qsort r.1 r.2 sortData true = some r' ∧ r'.2 = some 3 ∧
      WellFormed r'.1 3 [3, 1, 2, 4, 0] ∧ [3, 1, 2, 4, 0].map testKey = [7, 5, 4, 2, 1] := by
  refine ⟨_, _, rfl, rfl, rfl, ?_, ?_⟩
  · decide
  · decide

/-! ## The contract -/

/-- C1: for a list whose `next` chain from the head `head` visits the nodes `w`
and ends, with `head.count = |w|` and `head.prev` the last node of `w`, and a
node `x` not in `w`, `list_append_(head, x)` returns `head`, and afterwards the
forward walk from `head` is `w ++ [x]` and `head.count = |w| + 1`. -/
theorem list_append_extends_walk (h : Heap) (head x : NodeId) (w : List NodeId)
    (hwalk : Walk h (some head) w) (hcount : (h head).count = w.length)
    (htail : (h head).prev = w.getLast?) (hx : x ∉ w) :
    ∃ h', list_append_ h (some head) (some x) = some (h', some head) ∧
      Walk h' (some head) (w ++ [x]) ∧ (h' head).count = w.length + 1 := by
  obtain ⟨h', hrun, hw, hc, -⟩ := list_append_walk h head x w hwalk hcount htail hx
  exact ⟨h', hrun, hw, hc⟩

theorem list_append_extends_walk_witness :
    Walk (chainHeap 2) (some (node 0)) [node 0, node 1] ∧
      (chainHeap 2 (node 0)).count = [node 0, node 1].length ∧
      (chainHeap 2 (node 0)).prev = [node 0, node 1].getLast? ∧
      node 2 ∉ [node 0, node 1] ∧
      ∃ h', list_append_ (chainHeap 2) (some (node 0)) (some (node 2)) = some (h', some (node 0)) ∧
        Walk h' (some (node 0)) ([node 0, node 1] ++ [node 2]) ∧
        (h' (node 0)).count = [node 0, node 1].length + 1 :=
  ⟨by decide, by decide, by decide, by decide,
    list_append_extends_walk (chainHeap 2) (node 0) (node 2) [node 0, node 1]
      (by decide) (by decide) (by decide) (by decide)⟩

/-- C2: for a well-formed list with forward walk `w` and a node `x` of `w`,
`list_remove_(head, x)` returns; it returns `NULL` exactly when `w = [x]`, and
otherwise a head whose forward walk is `w` with `x` erased, the other nodes in
their original order, whether `x` is the head, an interior node or the tail. -/
theorem list_remove_erases (h : Heap) (head x : NodeId) (w : List NodeId)
    (hwf : WellFormed h head w) (hx : x ∈ w) :
    ∃ h' r, list_remove_ h (some head) (some x) = some (h', r) ∧ (r = none ↔ w = [x]) ∧
      Walk h' r (w.erase x) ∧ w.erase x = w.filter (fun a => a ≠ x) ∧
      (w ≠ [x] → ∃ head', r = some head' ∧ Walk h' (some head') (w.erase x)) := by
  obtain ⟨h', r, hrun, hiff, hnone, hsome⟩ := hwf.remove hx
  have hwalk : Walk h' r (w.erase x) := by
    cases r with
    | none => rw [hnone rfl]; rfl
    | some l' => exact (hsome l' rfl).walk
  refine ⟨h', r, hrun, hiff, hwalk, ?_, fun hne => ?_⟩
  · rw [hwf.walk.nodup.erase_eq_filter]
    congr 1
    funext a
    by_cases hax : a = x <;> simp [hax]
  · cases r with
    | none => exact absurd (hiff.mp rfl) hne
    | some l' => exact ⟨l', rfl, hwalk⟩

theorem list_remove_erases_witness :
    WellFormed (chainHeap 3) (node 0) (chainWalk 3) ∧ node 1 ∈ chainWalk 3 ∧
      ∃ h' r, list_remove_ (chainHeap 3) (some (node 0)) (some (node 1)) = some (h', r) ∧
        (r = none ↔ chainWalk 3 = [node 1]) ∧
        Walk h' r ((chainWalk 3).erase (node 1)) ∧
        (chainWalk 3).erase (node 1) = (chainWalk 3).filter (fun a => a ≠ node 1) ∧
        (chainWalk 3 ≠ [node 1] →
          ∃ head', r = some head' ∧ Walk h' (some head') ((chainWalk 3).erase (node 1))) :=
  ⟨chain_wf 3 (by decide) (by decide), by decide,
    list_remove_erases (chainHeap 3) (node 0) (node 1) (chainWalk 3)
      (chain_wf 3 (by decide) (by decide)) (by decide)⟩

/-- C3 (the code breaks it on long lists): on the well-formed list of
`2^31 + 1` nodes, `list_sort_(head, cmp, false)` does not return a sorted
permutation; with any array sort and any comparator its behaviour is
undefined, because the `int` loop bounds cannot hold `count - 1`. -/
theorem list_sort_fails_on_long_list :
    WellFormed (chainHeap 2147483649) (node 0) (chainWalk 2147483649) ∧
      (chainWalk 2147483649).length = 2147483649 ∧
      ∀ (qsort : list_comp_func_t → List NodeId → List NodeId) (cmp : list_comp_func_t),
        list_sort_ qsort (chainHeap 2147483649) (some (node 0)) cmp false = none :=
  ⟨chain_wf 2147483649 (by decide) (by decide), chainWalk_length 2147483649,
    fun qsort cmp => list_sort_overflow qsort cmp _ _ rfl⟩

/-- C4 (the code breaks it on long lists): on the well-formed list of
`2^31 + 1` nodes, `list_sort_(head, cmp, true)` does not return a reverse-sorted
permutation; with any array sort and any comparator its behaviour is
undefined, because the `int` variable `start` cannot hold `count - 1`. -/
theorem list_rsort_fails_on_long_list :
    WellFormed (chainHeap 2147483649) (node 0) (chainWalk 2147483649) ∧
      (chainWalk 2147483649).length = 2147483649 ∧
      ∀ (qsort : list_comp_func_t → List NodeId → List NodeId) (cmp : list_comp_func_t),
        list_sort_ qsort (chainHeap 2147483649) (some (node 0)) cmp true = none :=
  ⟨chain_wf 2147483649 (by decide) (by decide), chainWalk_length 2147483649,
    fun qsort cmp => list_rsort_overflow qsort cmp _ _ rfl⟩

/-- C5: count invariant.  Starting from the empty list, every sequence of
`list_append_` calls (each with a node not in the list) and `list_remove_`
calls (each with a node in the list), also with `list_init_` calls on nodes
outside the list in between, runs to completion, and afterwards `list_count_`
of the current head is the number of nodes on the forward walk from the head,
and is `0` when the list is absent. -/
theorem count_invariant (h0 : Heap) (ops : List Op) (hlegal : Legal ops []) :
    ∃ h p, run ops (h0, none) = some (h, p) ∧ Walk h p (contents ops []) ∧
      (list_count_ h p).2 = (contents ops []).length ∧
      (p = none → (list_count_ h p).2 = 0) := by
  obtain ⟨h, p, hrun, hinv⟩ := ListInv.run ops (show ListInv h0 none [] from rfl) hlegal
  refine ⟨h, p, hrun, hinv.walk, ?_, fun e => by rw [e]; rfl⟩
  cases p with
  | none =>
    have hw : contents ops [] = [] := hinv
    rw [hw]
    rfl
  | some l => exact WellFormed.count hinv

theorem count_invariant_witness :
    Legal [Op.append 0, Op.append 1, Op.remove 0, Op.append 2] [] ∧
      ∃ h p, run [Op.append 0, Op.append 1, Op.remove 0, Op.append 2] (emptyHeap, none)
          = some (h, p) ∧
        Walk h p (contents [Op.append 0, Op.append 1, Op.remove 0, Op.append 2] []) ∧
        (list_count_ h p).2 =
          (contents [Op.append 0, Op.append 1, Op.remove 0, Op.append 2] []).length ∧
        (p = none → (list_count_ h p).2 = 0) :=
  ⟨by decide, count_invariant emptyHeap _ (by decide)⟩

/-- C6: tail invariant.  Starting from the empty list, after every sequence of
`list_init_` and `list_append_` calls (each with a node not in the list) and
`list_remove_` calls (each with a node in the list) that leaves the list
non-empty, `head.prev` is the last node of the forward walk from the head, and
that node has no `next`. -/
theorem tail_invariant (h0 : Heap) (ops : List Op) (hlegal : Legal ops []) :
    ∃ h p, run ops (h0, none) = some (h, p) ∧ Walk h p (contents ops []) ∧
      ∀ head, p = some head →
        ∃ t, (h head).prev = some t ∧ (contents ops []).getLast? = some t ∧
          (h t).next = none := by
  obtain ⟨h, p, hrun, hinv⟩ := ListInv.run ops (show ListInv h0 none [] from rfl) hlegal
  refine ⟨h, p, hrun, hinv.walk, fun head e => ?_⟩
  subst e
  have hwf : WellFormed h head (contents ops []) := hinv
  obtain ⟨w', hw'⟩ := hwf.walk.head_eq
  obtain ⟨t, ht⟩ : ∃ t, (contents ops []).getLast? = some t := by
    rw [hw']
    exact ⟨_, List.getLast?_eq_getLast _ (List.cons_ne_nil _ _)⟩
  refine ⟨t, by rw [hwf.tail, ht], ht, ?_⟩
  obtain ⟨ini, hini⟩ := List.getLast?_eq_some_iff.mp ht
  have hwalk := hwf.walk
  rw [hini] at hwalk
  exact (Seg.snoc_iff.mp hwalk).2

theorem tail_invariant_witness :
    Legal [Op.init 0 true, Op.append 1, Op.init 5 false, Op.append 2, Op.remove 2] [] ∧
      ∃ h p, run [Op.init 0 true, Op.append 1, Op.init 5 false, Op.append 2, Op.remove 2]
          (emptyHeap, none) = some (h, p) ∧
        Walk h p
          (contents [Op.init 0 true, Op.append 1, Op.init 5 false, Op.append 2, Op.remove 2] []) ∧
        ∀ head, p = some head →
          ∃ t, (h head).prev = some t ∧
            (contents [Op.init 0 true, Op.append 1, Op.init 5 false, Op.append 2, Op.remove 2]
              []).getLast? = some t ∧
            (h t).next = none :=
  ⟨by decide, tail_invariant emptyHeap _ (by decide)⟩

/-- C7: append-order property.  Appending the pairwise distinct nodes
`a1, ..., an` in turn, starting from the absent list, yields the head `a1`
whose forward walk is `[a1, ..., an]`, and the backward walk from the tail
`head.prev` over `prev` up to the head is `[an, ..., a1]`. -/
theorem append_order (h0 : Heap) (a1 : NodeId) (rest : List NodeId)
    (hnd : (a1 :: rest).Nodup) :
    ∃ h, makeList h0 (a1 :: rest) = some (h, some a1) ∧
      Walk h (some a1) (a1 :: rest) ∧ BackWalk h a1 (h a1).prev (a1 :: rest).reverse := by
  obtain ⟨h1, hinit, hwf1, -, -⟩ := WellFormed.singleton h0 a1
  obtain ⟨h, hrun, hwf⟩ := makeList_loop_wf rest h1 a1 [a1] hwf1 hnd
  refine ⟨h, ?_, hwf.walk, hwf.backWalk⟩
  simp only [makeList, makeList_loop, list_append_, hinit, hrun]

theorem append_order_witness :
    [node 7, node 3, node 5].Nodup ∧
      ∃ h, makeList emptyHeap [node 7, node 3, node 5] = some (h, some (node 7)) ∧
        Walk h (some (node 7)) [node 7, node 3, node 5] ∧
        BackWalk h (node 7) (h (node 7)).prev [node 7, node 3, node 5].reverse :=
  ⟨by decide, append_order emptyHeap (node 7) [node 3, node 5] (by decide)⟩

/-- C8: remove-head property.  For a list `[n1, n2, ..., nk]` of at least two
nodes, `list_remove_(n1, n1)` returns `n2`, and afterwards `n2.count = k - 1`
and `n2.prev` is `nk`, the tail as before (`n2` itself when `k = 2`). -/
theorem remove_head_returns_second (h : Heap) (n1 n2 : NodeId) (w : List NodeId)
    (hwalk : Walk h (some n1) (n1 :: n2 :: w))
    (hcount : (h n1).count = (n1 :: n2 :: w).length)
    (htail : (h n1).prev = (n1 :: n2 :: w).getLast?) :
    ∃ h', list_remove_ h (some n1) (some n1) = some (h', some n2) ∧
      (h' n2).count = (n1 :: n2 :: w).length - 1 ∧
      (h' n2).prev = (n1 :: n2 :: w).getLast? ∧ (h' n2).prev = (h n1).prev ∧
      (w = [] → (h' n2).prev = some n2) := by
  have hnext : (h n1).next = some n2 := hwalk.2.1
  obtain ⟨h', hrun, -, hpv, hct⟩ := list_remove_head_effect h n1 n2 hnext
  have hp : (h' n2).prev = (h n1).prev := by rw [hpv, if_pos rfl]
  refine ⟨h', hrun, ?_, by rw [hp, htail], hp, fun hw => ?_⟩
  · rw [hct, if_pos rfl, ite_self, hcount, count_pred _ (by simp) hwalk.length_le]
  · rw [hp, htail, hw]
    rfl

theorem remove_head_returns_second_witness :
    Walk (chainHeap 3) (some (node 0)) [node 0, node 1, node 2] ∧
      (chainHeap 3 (node 0)).count = [node 0, node 1, node 2].length ∧
      (chainHeap 3 (node 0)).prev = [node 0, node 1, node 2].getLast? ∧
      ∃ h', list_remove_ (chainHeap 3) (some (node 0)) (some (node 0)) = some (h', some (node 1)) ∧
        (h' (node 1)).count = [node 0, node 1, node 2].length - 1 ∧
        (h' (node 1)).prev = [node 0, node 1, node 2].getLast? ∧
        (h' (node 1)).prev = (chainHeap 3 (node 0)).prev ∧
        (([node 2] : List NodeId) = [] → (h' (node 1)).prev = some (node 1)) :=
  ⟨by decide, by decide, by decide,
    remove_head_returns_second (chainHeap 3) (node 0) (node 1) [node 2]
      (by decide) (by decide) (by decide)⟩

/-- C9: `list_init_(x)` sets `x.count = 1`, `x.prev = x`, `x.next = NULL` and
writes no other node; and for every heap, whatever the fields of `x` were,
`list_append_(NULL, x)` returns `x` and leaves the very heap `list_init_(x)`
produces. -/
theorem init_and_append_to_absent (h : Heap) (x : NodeId) :
    ∃ h1, list_init_ h (some x) = some h1 ∧
      (h1 x).count = 1 ∧ (h1 x).prev = some x ∧ (h1 x).next = none ∧
      (∀ b, b ≠ x → h1 b = h b) ∧
      list_append_ h none (some x) = some (h1, some x) := by
  obtain ⟨h1, hinit, -, hx, hframe⟩ := WellFormed.singleton h x
  refine ⟨h1, hinit, by rw [hx], by rw [hx], by rw [hx], hframe, ?_⟩
  simp only [list_append_, hinit]

/-- C10: `list_count_` returns `0` for `NULL` and `head.count` for every other
head, and writes nothing: the heap after the call is the heap before it.  The
macro `list_count` agrees with it. -/
theorem list_count_reads (h : Heap) :
    list_count_ h none = (h, 0) ∧ (∀ head, list_count_ h (some head) = (h, (h head).count)) ∧
      (∀ p, (list_count_ h p).1 = h) ∧ ∀ p, list_count h p = list_count_ h p := by
  refine ⟨rfl, fun _ => rfl, fun p => ?_, fun p => ?_⟩
  · cases p <;> rfl
  · cases p <;> rfl

/-! ## Frames and round trips -/

theorem list_t_eq (a b : list_t) (h1 : a.count = b.count) (h2 : a.prev = b.prev)
    (h3 : a.next = b.next) : a = b := by
  cases a
  cases b
  simp only at h1 h2 h3
  rw [h1, h2, h3]

/-- C13: append side effects are confined.  For a well-formed non-empty list
with tail `tail` and a node `x` not in it, `list_append_(head, x)` changes no
`next` but those of `x` and the old tail, no `prev` but those of `x` and the
head, and no `count` but the head's; in particular `x.count` is unchanged. -/
theorem list_append_frame (h : Heap) (head x tail : NodeId) (w : List NodeId)
    (hwf : WellFormed h head w) (htl : w.getLast? = some tail) (hx : x ∉ w) :
    ∃ h', list_append_ h (some head) (some x) = some (h', some head) ∧
      (∀ b, b ≠ x → b ≠ tail → (h' b).next = (h b).next) ∧
      (∀ b, b ≠ x → b ≠ head → (h' b).prev = (h b).prev) ∧
      (∀ b, b ≠ head → (h' b).count = (h b).count) ∧
      (h' x).count = (h x).count ∧
      (∀ b, b ≠ x → b ≠ tail → b ≠ head → h' b = h b) := by
  obtain ⟨h', hrun, -, -, -, -, hpv, hnx, hct⟩ :=
    list_append_walk h head x w hwf.walk hwf.count hwf.tail hx
  obtain ⟨w', hw'⟩ := hwf.walk.head_eq
  have hxh : x ≠ head := fun e => hx (by rw [hw', e]; exact List.mem_cons_self _ _)
  have hnx' : ∀ b, b ≠ x → b ≠ tail → (h' b).next = (h b).next := by
    intro b h1 h2
    refine hnx b h1 ?_
    rw [htl]
    exact fun e => h2 (Option.some.inj e)
  refine ⟨h', hrun, hnx', hpv, hct, hct x hxh, fun b h1 h2 h3 => ?_⟩
  exact list_t_eq _ _ (hct b h3) (hpv b h1 h3) (hnx' b h1 h2)

theorem list_append_frame_witness :
    WellFormed (chainHeap 3) (node 0) (chainWalk 3) ∧
      (chainWalk 3).getLast? = some (node 2) ∧ node 5 ∉ chainWalk 3 ∧
      ∃ h', list_append_ (chainHeap 3) (some (node 0)) (some (node 5)) = some (h', some (node 0)) ∧
        (∀ b, b ≠ node 5 → b ≠ node 2 → (h' b).next = (chainHeap 3 b).next) ∧
        (∀ b, b ≠ node 5 → b ≠ node 0 → (h' b).prev = (chainHeap 3 b).prev) ∧
        (∀ b, b ≠ node 0 → (h' b).count = (chainHeap 3 b).count) ∧
        (h' (node 5)).count = (chainHeap 3 (node 5)).count ∧
        (∀ b, b ≠ node 5 → b ≠ node 2 → b ≠ node 0 → h' b = chainHeap 3 b) :=
  ⟨chain_wf 3 (by decide) (by decide), by decide, by decide,
    list_append_frame (chainHeap 3) (node 0) (node 5) (node 2) (chainWalk 3)
      (chain_wf 3 (by decide) (by decide)) (by decide) (by decide)⟩

/-- C16: append followed by removal of the appended node is a round trip.  For
a list that is absent or well-formed with walk `w` and a node `x` not in it,
`list_remove_(list_append_(L, x), x)` returns the original head pointer of `L`
(absent when `L` was absent), and every node other than `x`, so every node of
`L`, has its `count`, `prev` and `next` as before the append. -/
theorem append_remove_round_trip (h : Heap) (p : Ptr) (w : List NodeId) (x : NodeId)
    (hinv : ListInv h p w) (hx : x ∉ w) :
    ∃ h1 p1 h2, list_append_ h p (some x) = some (h1, p1) ∧
      list_remove_ h1 p1 (some x) = some (h2, p) ∧
      (∀ b, b ≠ x → h2 b = h b) ∧ (∀ b ∈ w, h2 b = h b) := by
  have hmem : ∀ (h2 : Heap), (∀ b, b ≠ x → h2 b = h b) → ∀ b ∈ w, h2 b = h b :=
    fun h2 hf b hb => hf b (fun e => hx (e ▸ hb))
  cases p with
  | none =>
    obtain ⟨h1, hinit, hwf1, -, hframe⟩ := WellFormed.singleton h x
    have hn : (h1 x).next = none := hwf1.walk.2
    refine ⟨h1, some x, h1, ?_, ?_, hframe, hmem h1 hframe⟩
    · simp only [list_append_, hinit]
    · exact list_remove_single h1 x hn
  | some l =>
    have hwf : WellFormed h l w := hinv
    obtain ⟨w', hw'⟩ := hwf.walk.head_eq
    obtain ⟨la, hla⟩ : ∃ la, w.getLast? = some la := by
      rw [hw']
      exact ⟨_, List.getLast?_eq_getLast _ (List.cons_ne_nil _ _)⟩
    have hlen := hwf.walk.length_lt hx
    have hp : (h l).prev = some la := by rw [hwf.tail, hla]
    have hxl : x ≠ l := fun e => hx (by rw [hw', e]; exact List.mem_cons_self _ _)
    have hxla : x ≠ la := fun e => hx (e ▸ List.mem_of_getLast?_eq_some hla)
    have hlan : (h la).next = none := by
      obtain ⟨ini, hini⟩ := List.getLast?_eq_some_iff.mp hla
      have hwalk := hwf.walk
      rw [hini] at hwalk
      exact (Seg.snoc_iff.mp hwalk).2
    obtain ⟨h1, hrun1, hnx1, hpv1, hct1⟩ := list_append_effect h l x la hp
    have hxp : (h1 x).prev = some la := by rw [hpv1, if_pos rfl]
    have hxn : (h1 x).next = none := by rw [hnx1, if_pos rfl]
    have hln : (h1 x).next ≠ some l := by rw [hxn]; exact fun e => Option.noConfusion e
    obtain ⟨h2, hrun2, hnx2, hpv2, hct2⟩ := list_remove_inner_effect h1 l x la hxl hxp hxla hln
    have hframe : ∀ b, b ≠ x → h2 b = h b := by
      intro b hb
      refine list_t_eq _ _ ?_ ?_ ?_
      · rw [hct2]
        by_cases hbl : b = l
        · have hmax : MAX_NODES < SIZE_MOD := by decide
          have e1 : (w.length + 1) % SIZE_MOD = w.length + 1 := Nat.mod_eq_of_lt (by omega)
          rw [if_pos hbl, hct1, if_pos rfl, hbl, hwf.count, e1,
            count_pred (w.length + 1) (by omega) hlen]
          omega
        · rw [if_neg hbl, hct1, if_neg hbl]
      · rw [hpv2]
        have hl1 : (h1 l).prev = some x := by rw [hpv1, if_neg (Ne.symm hxl), if_pos rfl]
        by_cases hbl : b = l
        · rw [if_pos ⟨hbl, hl1⟩, hbl, hp]
        · rw [if_neg (fun c => hbl c.1), hxn, if_neg (fun e => Option.noConfusion e), hpv1,
            if_neg hb, if_neg hbl]
      · rw [hnx2, hxn]
        by_cases hbla : b = la
        · rw [if_pos hbla, hbla, hlan]
        · rw [if_neg hbla, hnx1, if_neg hb, if_neg hbla]
    exact ⟨h1, some l, h2, hrun1, hrun2, hframe, hmem h2 hframe⟩

theorem append_remove_round_trip_witness :
    ListInv (chainHeap 3) (some (node 0)) (chainWalk 3) ∧ node 5 ∉ chainWalk 3 ∧
      ∃ h1 p1 h2, list_append_ (chainHeap 3) (some (node 0)) (some (node 5)) = some (h1, p1) ∧
        list_remove_ h1 p1 (some (node 5)) = some (h2, some (node 0)) ∧
        (∀ b, b ≠ node 5 → h2 b = chainHeap 3 b) ∧ (∀ b ∈ chainWalk 3, h2 b = chainHeap 3 b) :=
  ⟨chain_wf 3 (by decide) (by decide), by decide,
    append_remove_round_trip (chainHeap 3) (some (node 0)) (chainWalk 3) (node 5)
      (chain_wf 3 (by decide) (by decide)) (by decide)⟩

theorem WellFormed.inner_facts {h : Heap} {l x : NodeId} {s t : List NodeId}
    (hwf : WellFormed h l (l :: s ++ x :: t)) :
    ∃ p, (l :: s).getLast? = some p ∧ (h x).prev = some p ∧ x ≠ l ∧ x ≠ p ∧
      (h x).next = t.head? ∧ x ∉ t ∧ l ∉ t := by
  have hnd : ((l :: s) ++ x :: t).Nodup := hwf.walk.nodup
  obtain ⟨p, hlast⟩ : ∃ p, (l :: s).getLast? = some p :=
    ⟨_, List.getLast?_eq_getLast _ (List.cons_ne_nil _ _)⟩
  have hlast' : (l :: s).getLast (List.cons_ne_nil l s) = p := getLast_of_getLast? _ hlast
  have hlinks : PrevOk h l (s ++ x :: t) := hwf.links
  obtain ⟨-, hl2⟩ := PrevOk.prev_append_iff.mp hlinks
  rw [hlast'] at hl2
  obtain ⟨-, hnd2, hdisj⟩ := List.nodup_append.mp hnd
  have hx_not : x ∉ l :: s := fun hm => hdisj hm (List.mem_cons_self _ _)
  have hpmem : p ∈ l :: s := List.mem_of_getLast?_eq_some hlast
  have hwalk : Seg h (some l) ((l :: s) ++ x :: t) none := hwf.walk
  obtain ⟨m, -, hw2⟩ := Seg.split_iff.mp hwalk
  have hw3 : Seg h (h x).next t none := hw2.2
  refine ⟨p, hlast, hl2.1, fun e => hx_not (by simp [e]), fun e => hx_not (e ▸ hpmem), ?_,
    (List.nodup_cons.mp hnd2).1,
    fun hm => hdisj (List.mem_cons_self _ _) (List.mem_cons_of_mem _ hm)⟩
  cases t with
  | nil => exact hw3
  | cons n t' => exact hw3.1

/-- C18: removal never writes to the removed node.  For a well-formed list with
walk `s ++ x :: t`, `list_remove_(head, x)` leaves `x` as it was, changes no
`next` but that of the predecessor of `x` (the last node of `s`), no `prev` but
those of the successor of `x` (the first node of `t`) and of the returned head,
and no `count` but that of the returned head; every other node is unchanged. -/
theorem list_remove_frame (h : Heap) (head x : NodeId) (s t : List NodeId)
    (hwf : WellFormed h head (s ++ x :: t)) :
    ∃ h' r, list_remove_ h (some head) (some x) = some (h', r) ∧ h' x = h x ∧
      (∀ b, some b ≠ s.getLast? → (h' b).next = (h b).next) ∧
      (∀ b, some b ≠ t.head? → some b ≠ r → (h' b).prev = (h b).prev) ∧
      (∀ b, some b ≠ r → (h' b).count = (h b).count) ∧
      (∀ b, some b ≠ s.getLast? → some b ≠ t.head? → some b ≠ r → h' b = h b) := by
  have hkey : ∀ (h' : Heap) (r : Ptr),
      (∀ b, some b ≠ s.getLast? → (h' b).next = (h b).next) →
      (∀ b, some b ≠ t.head? → some b ≠ r → (h' b).prev = (h b).prev) →
      (∀ b, some b ≠ r → (h' b).count = (h b).count) →
      ∀ b, some b ≠ s.getLast? → some b ≠ t.head? → some b ≠ r → h' b = h b :=
    fun h' r f1 f2 f3 b h1 h2 h3 => list_t_eq _ _ (f3 b h3) (f2 b h2 h3) (f1 b h1)
  obtain ⟨w', hw'⟩ := hwf.walk.head_eq
  have hnd := hwf.walk.nodup
  cases s with
  | nil =>
    have hxh : x = head := by
      have : x :: t = head :: w' := hw'
      exact (List.cons.inj this).1
    subst hxh
    cases t with
    | nil =>
      have hn : (h x).next = none := hwf.walk.2
      exact ⟨h, none, list_remove_single h x hn, rfl, fun _ _ => rfl, fun _ _ _ => rfl,
        fun _ _ => rfl, fun _ _ _ _ => rfl⟩
    | cons n2 t' =>
      have hnext : (h x).next = some n2 := hwf.walk.2.1
      have hxn : x ≠ n2 := fun e =>
        (List.nodup_cons.mp hnd).1 (by rw [e]; exact List.mem_cons_self _ _)
      obtain ⟨h', hrun, hnx, hpv, hct⟩ := list_remove_head_effect h x n2 hnext
      have f1 : ∀ b, some b ≠ ([] : List NodeId).getLast? → (h' b).next = (h b).next :=
        fun b _ => hnx b
      have f2 : ∀ b, some b ≠ (n2 :: t').head? → some b ≠ some n2 →
          (h' b).prev = (h b).prev := by
        intro b _ hb
        rw [hpv, if_neg (fun e => hb (by rw [e]))]
      have f3 : ∀ b, some b ≠ some n2 → (h' b).count = (h b).count := by
        intro b hb
        rw [hct, if_neg (fun e => hb (by rw [e]))]
      refine ⟨h', some n2, hrun, ?_, f1, f2, f3, hkey h' (some n2) f1 f2 f3⟩
      refine list_t_eq _ _ ?_ ?_ (hnx x)
      · rw [hct, if_neg hxn]
      · rw [hpv, if_neg hxn]
  | cons a s' =>
    have hah : a = head := by
      have : a :: (s' ++ x :: t) = head :: w' := hw'
      exact (List.cons.inj this).1
    subst hah
    have hwf' : WellFormed h a (a :: s' ++ x :: t) := hwf
    obtain ⟨p, hlast, hp, hxl, hxp, hxnext, hxt, hlt⟩ := hwf'.inner_facts
    have hln : (h x).next ≠ some a := by
      rw [hxnext]
      exact fun e => hlt (List.mem_of_mem_head? e)
    obtain ⟨h', hrun, hnx, hpv, hct⟩ := list_remove_inner_effect h a x p hxl hp hxp hln
    have f1 : ∀ b, some b ≠ (a :: s').getLast? → (h' b).next = (h b).next := by
      intro b hb
      rw [hlast] at hb
      rw [hnx, if_neg (fun e => hb (by rw [e]))]
    have f2 : ∀ b, some b ≠ t.head? → some b ≠ some a → (h' b).prev = (h b).prev := by
      intro b hb1 hb2
      rw [hpv, if_neg (fun c => hb2 (by rw [c.1])), hxnext, if_neg (fun e => hb1 e.symm)]
    have f3 : ∀ b, some b ≠ some a → (h' b).count = (h b).count := by
      intro b hb
      rw [hct, if_neg (fun e => hb (by rw [e]))]
    refine ⟨h', some a, hrun, ?_, f1, f2, f3, hkey h' (some a) f1 f2 f3⟩
    refine list_t_eq _ _ ?_ ?_ ?_
    · rw [hct, if_neg hxl]
    · rw [hpv, if_neg (fun c => hxl c.1), hxnext,
        if_neg (fun (e : t.head? = some x) => hxt (List.mem_of_mem_head? e))]
    · rw [hnx, if_neg hxp]

theorem list_remove_frame_witness :
    WellFormed (chainHeap 4) (node 0) ([node 0] ++ node 1 :: [node 2, node 3]) ∧
      ∃ h' r, list_remove_ (chainHeap 4) (some (node 0)) (some (node 1)) = some (h', r) ∧
        h' (node 1) = chainHeap 4 (node 1) ∧
        (∀ b, some b ≠ [node 0].getLast? → (h' b).next = (chainHeap 4 b).next) ∧
        (∀ b, some b ≠ [node 2, node 3].head? → some b ≠ r →
          (h' b).prev = (chainHeap 4 b).prev) ∧
        (∀ b, some b ≠ r → (h' b).count = (chainHeap 4 b).count) ∧
        (∀ b, some b ≠ [node 0].getLast? → some b ≠ [node 2, node 3].head? → some b ≠ r →
          h' b = chainHeap 4 b) :=
  ⟨by decide,
    list_remove_frame (chainHeap 4) (node 0) (node 1) [node 0] [node 2, node 3] (by decide)⟩

theorem ListInv.append_fresh {h : Heap} {p : Ptr} {w : List NodeId} {x : NodeId}
    (hinv : ListInv h p w) (hx : x ∉ w) :
    ∃ h' r, list_append_ h p (some x) = some (h', r) ∧ ListInv h' r (w ++ [x]) ∧
      (p = none → r = some x) ∧ (∀ l, p = some l → r = some l) := by
  cases p with
  | none =>
    obtain ⟨h1, hinit, hwf1, -, -⟩ := WellFormed.singleton h x
    have hw : w = [] := hinv
    subst hw
    refine ⟨h1, some x, ?_, hwf1, fun _ => rfl, fun l e => Option.noConfusion e⟩
    simp only [list_append_, hinit]
  | some l =>
    have hwf : WellFormed h l w := hinv
    obtain ⟨h', hrun, hwf'⟩ := hwf.append hx
    exact ⟨h', some l, hrun, hwf', fun e => Option.noConfusion e, fun l' e => e ▸ rfl⟩

/-- C19: append does not depend on the appended node's prior linkage.  For a
list that is absent or well-formed and a node `x` not in it, two runs of
`list_append_` from heaps that differ at most in the fields of `x` return the
same head and give the same forward walk, the same `head.count` and
`head.prev`, the same `prev` and `next` of `x`, and the same value of every
other node.  So a node taken out by `list_remove_` can be appended again as it
is, without `list_init_`: the result is the well-formed list of the remaining
nodes followed by that node. -/
theorem list_append_ignores_item_fields (hA hB : Heap) (p : Ptr) (w : List NodeId)
    (x : NodeId) (hinv : ListInv hA p w) (hx : x ∉ w) (hsame : ∀ b, b ≠ x → hB b = hA b) :
    (∃ hA' hB' r, list_append_ hA p (some x) = some (hA', r) ∧
      list_append_ hB p (some x) = some (hB', r) ∧
      Walk hA' r (w ++ [x]) ∧ Walk hB' r (w ++ [x]) ∧
      (∀ head, r = some head →
        (hA' head).count = (hB' head).count ∧ (hA' head).prev = (hB' head).prev) ∧
      (hA' x).prev = (hB' x).prev ∧ (hA' x).next = (hB' x).next ∧
      (∀ b, b ≠ x → hA' b = hB' b)) ∧
    (∀ (h : Heap) (l y : NodeId) (v : List NodeId), WellFormed h l v → y ∈ v →
      ∃ h1 r1 h2 r2, list_remove_ h (some l) (some y) = some (h1, r1) ∧
        list_append_ h1 r1 (some y) = some (h2, r2) ∧ ListInv h2 r2 (v.erase y ++ [y]) ∧
        Walk h2 r2 (v.erase y ++ [y])) := by
  constructor
  · have hinvB : ListInv hB p w := by
      cases p with
      | none => exact hinv
      | some l =>
        have hwf : WellFormed hA l w := hinv
        exact hwf.congr_heap (fun a ha => hsame a (fun e => hx (e ▸ ha)))
    obtain ⟨hA', rA, hrunA, hinvA', hnA, hsA⟩ := hinv.append_fresh hx
    obtain ⟨hB', rB, hrunB, hinvB', hnB, hsB⟩ := hinvB.append_fresh hx
    have hr : rB = rA := by
      cases p with
      | none => rw [hnA rfl, hnB rfl]
      | some l => rw [hsA l rfl, hsB l rfl]
    subst hr
    cases p with
    | none =>
      obtain ⟨h1, hi1, -, hx1, hf1⟩ := WellFormed.singleton hA x
      obtain ⟨h2, hi2, -, hx2, hf2⟩ := WellFormed.singleton hB x
      have e1 : hA' = h1 := by
        have : list_append_ hA none (some x) = some (h1, some x) := by
          simp only [list_append_, hi1]
        rw [this] at hrunA
        exact (Prod.mk.inj (Option.some.inj hrunA)).1.symm
      have e2 : hB' = h2 := by
        have : list_append_ hB none (some x) = some (h2, some x) := by
          simp only [list_append_, hi2]
        rw [this] at hrunB
        exact (Prod.mk.inj (Option.some.inj hrunB)).1.symm
      subst e1 e2
      have hxx : hA' x = hB' x := by rw [hx1, hx2]
      have hall : ∀ b, hA' b = hB' b := by
        intro b
        by_cases hb : b = x
        · rw [hb, hxx]
        · rw [hf1 b hb, hf2 b hb, hsame b hb]
      refine ⟨hA', hB', rB, hrunA, hrunB, hinvA'.walk, hinvB'.walk, fun head _ => ?_, ?_, ?_,
        fun b _ => hall b⟩
      · rw [hall head]; exact ⟨rfl, rfl⟩
      · rw [hxx]
      · rw [hxx]
    | some l =>
      have hwf : WellFormed hA l w := hinv
      obtain ⟨w', hw'⟩ := hwf.walk.head_eq
      obtain ⟨la, hla⟩ : ∃ la, w.getLast? = some la := by
        rw [hw']
        exact ⟨_, List.getLast?_eq_getLast _ (List.cons_ne_nil _ _)⟩
      have hlx : l ≠ x := fun e => hx (by rw [hw', ← e]; exact List.mem_cons_self _ _)
      have hpA : (hA l).prev = some la := by rw [hwf.tail, hla]
      have hpB : (hB l).prev = some la := by rw [hsame l hlx, hpA]
      obtain ⟨h1, hr1, hnx1, hpv1, hct1⟩ := list_append_effect hA l x la hpA
      obtain ⟨h2, hr2, hnx2, hpv2, hct2⟩ := list_append_effect hB l x la hpB
      have e1 : hA' = h1 := by
        rw [hr1] at hrunA
        exact (Prod.mk.inj (Option.some.inj hrunA)).1.symm
      have e2 : hB' = h2 := by
        rw [hr2] at hrunB
        exact (Prod.mk.inj (Option.some.inj hrunB)).1.symm
      subst e1 e2
      have hrl : rB = some l := hsA l rfl
      have hcnt : ∀ b, b ≠ x → (hA' b).count = (hB' b).count := by
        intro b hb
        rw [hct1, hct2, hsame l hlx, hsame b hb]
      have hprev : ∀ b, (hA' b).prev = (hB' b).prev := by
        intro b
        rw [hpv1, hpv2]
        by_cases hb : b = x
        · rw [if_pos hb, if_pos hb]
        · rw [if_neg hb, if_neg hb, hsame b hb]
      have hnext : ∀ b, (hA' b).next = (hB' b).next := by
        intro b
        rw [hnx1, hnx2]
        by_cases hb : b = x
        · rw [if_pos hb, if_pos hb]
        · rw [if_neg hb, if_neg hb, hsame b hb]
      refine ⟨hA', hB', rB, hrunA, hrunB, hinvA'.walk, hinvB'.walk, fun head hh => ?_,
        hprev x, hnext x, fun b hb => list_t_eq _ _ (hcnt b hb) (hprev b) (hnext b)⟩
      rw [hrl] at hh
      cases hh
      exact ⟨hcnt l hlx, hprev l⟩
  · intro h l y v hwf hy
    obtain ⟨h1, r1, hrun1, -, hnone, hsome⟩ := hwf.remove hy
    have hinv1 : ListInv h1 r1 (v.erase y) := by
      cases r1 with
      | none => exact hnone rfl
      | some l' => exact hsome l' rfl
    have hy' : y ∉ v.erase y := fun hm => (hwf.walk.nodup.mem_erase_iff.mp hm).1 rfl
    obtain ⟨h2, r2, hrun2, hinv2, -, -⟩ := hinv1.append_fresh hy'
    exact ⟨h1, r1, h2, r2, hrun1, hrun2, hinv2, hinv2.walk⟩

theorem list_append_ignores_item_fields_witness :
    ListInv (chainHeap 3) (some (node 0)) (chainWalk 3) ∧ node 5 ∉ chainWalk 3 ∧
      (∀ b, b ≠ node 5 → setNext (setCount (chainHeap 3) (node 5) 9) (node 5) (some (node 1)) b
        = chainHeap 3 b) ∧
      ((∃ hA' hB' r, list_append_ (chainHeap 3) (some (node 0)) (some (node 5)) = some (hA', r) ∧
        list_append_ (setNext (setCount (chainHeap 3) (node 5) 9) (node 5) (some (node 1)))
          (some (node 0)) (some (node 5)) = some (hB', r) ∧
        Walk hA' r (chainWalk 3 ++ [node 5]) ∧ Walk hB' r (chainWalk 3 ++ [node 5]) ∧
        (∀ head, r = some head →
          (hA' head).count = (hB' head).count ∧ (hA' head).prev = (hB' head).prev) ∧
        (hA' (node 5)).prev = (hB' (node 5)).prev ∧
        (hA' (node 5)).next = (hB' (node 5)).next ∧
        (∀ b, b ≠ node 5 → hA' b = hB' b)) ∧
      (∀ (h : Heap) (l y : NodeId) (v : List NodeId), WellFormed h l v → y ∈ v →
        ∃ h1 r1 h2 r2, list_remove_ h (some l) (some y) = some (h1, r1) ∧
          list_append_ h1 r1 (some y) = some (h2, r2) ∧ ListInv h2 r2 (v.erase y ++ [y]) ∧
          Walk h2 r2 (v.erase y ++ [y]))) :=
  ⟨chain_wf 3 (by decide) (by decide), by decide,
    fun b hb => by simp [setNext, setCount, hb],
    list_append_ignores_item_fields (chainHeap 3)
      (setNext (setCount (chainHeap 3) (node 5) 9) (node 5) (some (node 1)))
      (some (node 0)) (chainWalk 3) (node 5) (chain_wf 3 (by decide) (by decide)) (by decide)
      (fun b hb => by simp [setNext, setCount, hb])⟩

/-! ## The reference scenario -/

/-- C17: the reference scenario, step by step.  From the empty list: append 1
gives `[1]`, count 1; append 2 gives `[1,2]`, count 2; removing the second node
gives `[1]`, count 1; append 3 gives `[1,3]`; append 2 gives `[1,3,2]`;
removing the second node, which has key 3, gives `[1,2]`; append 5 gives
`[1,2,5]`; removing the head gives `[2,5]`, count 2; append 7 gives `[2,5,7]`,
count 3. -/
theorem reference_scenario :
    ScenarioAfter 1 [1] 1 ∧ ScenarioAfter 2 [1, 2] 2 ∧ ScenarioAfter 3 [1] 1 ∧
      ScenarioAfter 4 [1, 3] 2 ∧ ScenarioAfter 5 [1, 3, 2] 3 ∧
      (∃ st l n, testRun (test_listAppendRemove.take 5) (emptyHeap, none) = some st ∧
        st.2 = some l ∧ (st.1 l).next = some n ∧ scenarioKey n = 3) ∧
      ScenarioAfter 6 [1, 2] 2 ∧ ScenarioAfter 7 [1, 2, 5] 3 ∧ ScenarioAfter 8 [2, 5] 2 ∧
      ScenarioAfter 9 [2, 5, 7] 3 := by
  refine ⟨⟨_, [0], rfl, ?_, ?_, rfl⟩, ⟨_, [0, 1], rfl, ?_, ?_, rfl⟩, ⟨_, [0], rfl, ?_, ?_, rfl⟩,
    ⟨_, [0, 2], rfl, ?_, ?_, rfl⟩, ⟨_, [0, 2, 3], rfl, ?_, ?_, rfl⟩,
    ⟨_, 0, 2, rfl, rfl, rfl, ?_⟩,
    ⟨_, [0, 3], rfl, ?_, ?_, rfl⟩, ⟨_, [0, 3, 4], rfl, ?_, ?_, rfl⟩,
    ⟨_, [3, 4], rfl, ?_, ?_, rfl⟩, ⟨_, [3, 4, 5], rfl, ?_, ?_, rfl⟩⟩ <;> decide

/-! ## `list_sort_` on every list: what it returns when it returns -/

theorem toInt_range (v : Nat) : -2147483648 ≤ toInt v ∧ toInt v ≤ 2147483647 := by
  unfold toInt
  split <;> omega

theorem toInt_nonneg (v : Nat) (h0 : 0 ≤ toInt v) :
    toInt v = ((v % 4294967296 : Nat) : Int) := by
  unfold toInt at h0 ⊢
  split
  · rfl
  · rename_i hlt
    rw [if_neg hlt] at h0
    omega

theorem addInt_none (a b : Int) (h1 : 2147483647 < a + b) : addInt a b = none := by
  unfold addInt
  have hmax : INT_MAX = 2147483647 := rfl
  rw [if_neg (by omega)]

theorem index_append_left (pre post : List NodeId) (i : Int) (h1 : 0 ≤ i)
    (h2 : i < pre.length) : index (pre ++ post) i = index pre i := by
  unfold index
  rw [if_pos h1, if_pos h1, List.getElem?_append_left (by omega)]

/-- When `(int)(count - 1)` is `m >= 0` (and `m + 1` fits an `int`, for the
forward direction), `list_sort_` returns, and the list it returns is
well-formed with the first `m + 1` entries of the sorted buffer as its walk
(reversed, when `rev`). -/
theorem list_sort_relinks_prefix (qsort : list_comp_func_t → List NodeId → List NodeId)
    (cmp : list_comp_func_t) (h : Heap) (l : NodeId) (w : List NodeId) (rev : Bool)
    (hwalk : Walk h (some l) w) (hcount : (h l).count = w.length)
    (hperm : (qsort cmp w).Perm w) (m : Nat)
    (hm : toInt (((h l).count + SIZE_MOD - 1) % SIZE_MOD) = (m : Int))
    (hmn : m < w.length) (hfw : m + (if rev then 0 else 1) ≤ 2147483647) :
    ∃ h' first, list_sort_ qsort h (some l) cmp rev = some (h', some first) ∧
      WellFormed h' first
        (if rev then ((qsort cmp w).take (m + 1)).reverse else (qsort cmp w).take (m + 1)) := by
  have hlenw := hwalk.length_le
  have hnd : (qsort cmp w).Nodup := hperm.nodup_iff.mpr hwalk.nodup
  have hlen : (qsort cmp w).length = w.length := hperm.length_eq
  have hg : gather h ((8 * (h l).count % SIZE_MOD) / 8) (some l) [] = some w := by
    rw [hcount, capacity_eq _ hlenw]
    simpa using gather_walk w.length [] hwalk (Nat.le_refl _)
  have hmin : INT_MIN = -2147483648 := rfl
  have hmax : INT_MAX = 2147483647 := rfl
  have hne : ¬ (w.length ≠ (h l).count) := by rw [hcount]; simp
  obtain ⟨pre, post, hsb, hprelen, htake⟩ : ∃ pre post, qsort cmp w = pre ++ post ∧
      pre.length = m + 1 ∧ (qsort cmp w).take (m + 1) = pre :=
    ⟨(qsort cmp w).take (m + 1), (qsort cmp w).drop (m + 1),
      (List.take_append_drop _ _).symm, by rw [List.length_take, hlen]; omega, rfl⟩
  have hndpre : pre.Nodup := by
    rw [hsb] at hnd
    exact (List.nodup_append.mp hnd).1
  rw [htake]
  unfold list_sort_
  dsimp only
  rw [hg]
  dsimp only
  rw [if_neg hne, hm, hsb]
  cases rev with
  | false =>
    simp only [Bool.false_eq_true, if_false] at hfw ⊢
    obtain ⟨b0, items, hpre⟩ : ∃ b0 items, pre = b0 :: items := by
      cases pre with
      | nil => simp at hprelen
      | cons b0 items => exact ⟨b0, items, rfl⟩
    subst hpre
    have hlen' : items.length = m := by
      rw [List.length_cons] at hprelen
      omega
    subst hlen'
    obtain ⟨h4, hrun, hwf4⟩ := relink_items (b0 :: items ++ post) ((items.length : Int) + 1) 1
      (Or.inl rfl) items [b0] _ b0 ((b0 :: items ++ post).length + 1) 1
      (by ring) (by omega) (by omega) (by omega) (by omega)
      (fun k hk => by
        rw [index_append_left _ _ _ (by omega) (by rw [List.length_cons]; omega)]
        exact index_succ_cons b0 items k)
      (sort_init_wf h b0) hndpre
      (by rw [List.length_append, List.length_cons]; omega)
    obtain ⟨e, he⟩ : ∃ e, (b0 :: items).getLast? = some e :=
      ⟨_, List.getLast?_eq_getLast _ (List.cons_ne_nil _ _)⟩
    have hi0 : index (b0 :: items ++ post) 0 = some b0 := by
      rw [index_append_left _ _ 0 (by omega) (by rw [List.length_cons]; omega)]
      exact index_zero_cons _ _
    have hie : index (b0 :: items ++ post) (items.length : Int) = some e := by
      rw [index_append_left _ _ _ (by omega) (by rw [List.length_cons]; omega)]
      obtain ⟨ini, hini⟩ := List.getLast?_eq_some_iff.mp he
      have hl : items.length = ini.length := by
        have := congrArg List.length hini
        rw [List.length_cons, List.length_append, List.length_singleton] at this
        omega
      rw [hini, hl]
      exact index_last_concat ini e
    refine ⟨setNext h4 e none, b0, ?_, ?_⟩
    · have ha1 : addInt 0 1 = some 1 := addInt_eq 0 1 (by omega) (by omega)
      have ha2 : addInt (items.length : Int) 1 = some ((items.length : Int) + 1) :=
        addInt_eq _ _ (by omega) (by omega)
      rw [hi0, ha1, ha2]
      dsimp only
      rw [hrun]
      dsimp only
      rw [hie]
    · exact (by simpa using hwf4 : WellFormed h4 b0 (b0 :: items)).setNext_last he
  | true =>
    rw [if_pos rfl] at hfw
    rw [if_pos rfl, if_pos rfl, if_pos rfl, if_pos rfl]
    obtain ⟨ini, bl, hpre⟩ : ∃ ini bl, pre = ini ++ [bl] := by
      rcases List.eq_nil_or_concat pre with hq | ⟨ini, bl, hq⟩
      · rw [hq] at hprelen; simp at hprelen
      · exact ⟨ini, bl, by rw [hq, List.concat_eq_append]⟩
    subst hpre
    have hlen' : ini.length = m := by
      rw [List.length_append, List.length_singleton] at hprelen
      omega
    subst hlen'
    have hplen : ((ini ++ [bl]).length : Int) = (ini.length : Int) + 1 := by
      rw [List.length_append, List.length_singleton]
      omega
    have hstart : index (ini ++ [bl] ++ post) (ini.length : Int) = some bl := by
      rw [index_append_left _ _ _ (by omega) (by omega)]
      exact index_last_concat ini bl
    obtain ⟨h4, hrun, hwf4⟩ := relink_items (ini ++ [bl] ++ post) (-1) (-1) (Or.inr rfl)
      ini.reverse [bl] _ bl ((ini ++ [bl] ++ post).length + 1) ((ini.length : Int) - 1)
      (by simp only [List.length_reverse]; omega) (by omega) (by omega) (by omega) (by omega)
      (fun k hk => by
        have hk' : k < ini.length := by simpa using hk
        rw [index_append_left _ _ _ (by omega) (by omega)]
        exact index_rev_concat ini bl k hk')
      (sort_init_wf h bl)
      (by
        have e : [bl] ++ ini.reverse = (ini ++ [bl]).reverse := by
          rw [List.reverse_append]; rfl
        rw [e]
        exact List.nodup_reverse.mpr hndpre)
      (by rw [List.length_reverse, List.length_append, List.length_append]; omega)
    obtain ⟨e, he⟩ : ∃ e, (ini ++ [bl]).head? = some e := by
      cases ini with
      | nil => exact ⟨bl, rfl⟩
      | cons a ini' => exact ⟨a, rfl⟩
    have hie : index (ini ++ [bl] ++ post) 0 = some e := by
      rw [index_append_left _ _ 0 (by omega) (by omega)]
      cases hh : ini ++ [bl] with
      | nil => rw [hh] at he; cases he
      | cons a t =>
        rw [hh] at he
        cases he
        exact index_zero_cons _ _
    have hrevlast : ([bl] ++ ini.reverse).getLast? = some e := by
      have : [bl] ++ ini.reverse = (ini ++ [bl]).reverse := by
        rw [List.reverse_append]; rfl
      rw [this, List.getLast?_reverse, he]
    refine ⟨setNext h4 e none, bl, ?_, ?_⟩
    · have ha1 : addInt (ini.length : Int) (-1) = some ((ini.length : Int) - 1) := by
        have e : (ini.length : Int) + -1 = (ini.length : Int) - 1 := by omega
        rw [addInt_eq _ _ (by omega) (by omega), e]
      have ha2 : addInt 0 (-1) = some (-1) := addInt_eq 0 (-1) (by omega) (by omega)
      rw [hstart, ha1, ha2]
      dsimp only
      rw [hrun]
      dsimp only
      rw [hie]
    · have : (ini ++ [bl]).reverse = [bl] ++ ini.reverse := by
        rw [List.reverse_append]; rfl
      rw [this]
      exact hwf4.setNext_last hrevlast

/-- When `(int)(count - 1)` is negative, `list_sort_` has undefined behaviour in
either direction. -/
theorem list_sort_none_of_neg (qsort : list_comp_func_t → List NodeId → List NodeId)
    (cmp : list_comp_func_t) (h : Heap) (l : NodeId) (rev : Bool)
    (he : toInt (((h l).count + SIZE_MOD - 1) % SIZE_MOD) < 0) :
    list_sort_ qsort h (some l) cmp rev = none := by
  have hr := toInt_range (((h l).count + SIZE_MOD - 1) % SIZE_MOD)
  unfold list_sort_
  dsimp only
  obtain ⟨e, hE⟩ : ∃ e, toInt (((h l).count + SIZE_MOD - 1) % SIZE_MOD) = e := ⟨_, rfl⟩
  rw [hE] at he hr ⊢
  cases gather h (8 * (h l).count % SIZE_MOD / 8) (some l) [] with
  | none => rfl
  | some buf =>
    dsimp only
    by_cases hb : buf.length ≠ (h l).count
    · rw [if_pos hb]
    · rw [if_neg hb]
      rcases Bool.eq_false_or_eq_true rev with hrev | hrev
      · have hi : index (qsort cmp buf) (if rev = true then e else 0) = none := by
          rw [if_pos hrev]
          unfold index
          rw [if_neg (by omega)]
        rw [hi]
      · have hr' : ¬ rev = true := by rw [hrev]; exact Bool.false_ne_true
        have ha1 : addInt 0 1 = some 1 := addInt_eq 0 1 (by omega) (by omega)
        have ha2 : addInt e 1 = some (e + 1) := addInt_eq e 1 (by omega) (by omega)
        rw [if_neg hr', if_neg hr', if_neg hr', ha1, ha2]
        cases index (qsort cmp buf) 0 with
        | none => rfl
        | some nl =>
          dsimp only
          rw [relink_up_none _ _ _ _ _ _ (by omega)]

/-- When `(int)(count - 1)` is `INT_MAX`, the forward sort has undefined
behaviour: the loop bound `end + inc` overflows. -/
theorem list_sort_none_of_int_max (qsort : list_comp_func_t → List NodeId → List NodeId)
    (cmp : list_comp_func_t) (h : Heap) (l : NodeId) (rev : Bool) (hrev : rev = false)
    (he : toInt (((h l).count + SIZE_MOD - 1) % SIZE_MOD) = 2147483647) :
    list_sort_ qsort h (some l) cmp rev = none := by
  have hr' : ¬ rev = true := by rw [hrev]; exact Bool.false_ne_true
  unfold list_sort_
  dsimp only
  obtain ⟨e, hE⟩ : ∃ e, toInt (((h l).count + SIZE_MOD - 1) % SIZE_MOD) = e := ⟨_, rfl⟩
  rw [hE] at he ⊢
  cases gather h (8 * (h l).count % SIZE_MOD / 8) (some l) [] with
  | none => rfl
  | some buf =>
    dsimp only
    by_cases hb : buf.length ≠ (h l).count
    · rw [if_pos hb]
    · rw [if_neg hb, if_neg hr', if_neg hr', if_neg hr', addInt_eq 0 1 (by omega) (by omega),
        addInt_none e 1 (by omega)]
      cases index (qsort cmp buf) 0 with
      | none => rfl
      | some nl => rfl

/-- Whenever `list_sort_` returns on a list whose `next` chain and `count` are
right, what it returns is a well-formed list of nodes of the old list. -/
theorem list_sort_returns_wf (qsort : list_comp_func_t → List NodeId → List NodeId)
    (cmp : list_comp_func_t) (h : Heap) (l : NodeId) (w : List NodeId) (rev : Bool)
    (hwalk : Walk h (some l) w) (hcount : (h l).count = w.length)
    (hperm : (qsort cmp w).Perm w) (h' : Heap) (p' : Ptr)
    (hrun : list_sort_ qsort h (some l) cmp rev = some (h', p')) :
    ∃ first out, p' = some first ∧ WellFormed h' first out ∧ ∀ a ∈ out, a ∈ w := by
  have hlenw := hwalk.length_le
  obtain ⟨w', hw'⟩ := hwalk.head_eq
  have hpos : 1 ≤ w.length := by rw [hw']; simp
  have hv : ((h l).count + SIZE_MOD - 1) % SIZE_MOD = w.length - 1 := by
    rw [hcount]; exact count_pred _ hpos hlenw
  by_cases hneg : toInt (((h l).count + SIZE_MOD - 1) % SIZE_MOD) < 0
  · rw [list_sort_none_of_neg qsort cmp h l rev hneg] at hrun
    cases hrun
  · have h0 : 0 ≤ toInt (((h l).count + SIZE_MOD - 1) % SIZE_MOD) := not_lt.mp hneg
    have hrange := toInt_range (((h l).count + SIZE_MOD - 1) % SIZE_MOD)
    have hnn := toInt_nonneg _ h0
    rw [hv] at hnn hrange
    have hm : toInt (((h l).count + SIZE_MOD - 1) % SIZE_MOD)
        = (((w.length - 1) % 4294967296 : Nat) : Int) := by rw [hv]; exact hnn
    have hmn : (w.length - 1) % 4294967296 < w.length := by
      have := Nat.mod_le (w.length - 1) 4294967296
      omega
    by_cases hfw : (w.length - 1) % 4294967296 + (if rev then 0 else 1) ≤ 2147483647
    · obtain ⟨h1, first, hrun1, hwf1⟩ := list_sort_relinks_prefix qsort cmp h l w rev hwalk
        hcount hperm _ hm hmn hfw
      rw [hrun1] at hrun
      have e1 := (Prod.mk.inj (Option.some.inj hrun)).1
      have e2 := (Prod.mk.inj (Option.some.inj hrun)).2
      subst e1 e2
      refine ⟨first, _, rfl, hwf1, fun a ha => ?_⟩
      have hsub : a ∈ qsort cmp w := by
        cases rev with
        | false =>
          rw [if_neg Bool.false_ne_true] at ha
          exact List.mem_of_mem_take ha
        | true =>
          rw [if_pos rfl] at ha
          exact List.mem_of_mem_take (List.mem_reverse.mp ha)
      exact hperm.mem_iff.mp hsub
    · exfalso
      have hrev : rev = false := by
        cases rev with
        | false => rfl
        | true =>
          rw [if_pos rfl] at hfw
          omega
      have he : toInt (((h l).count + SIZE_MOD - 1) % SIZE_MOD) = 2147483647 := by
        rw [hrev, if_neg Bool.false_ne_true] at hfw
        rw [hm]
        omega
      rw [list_sort_none_of_int_max qsort cmp h l rev hrev he] at hrun
      cases hrun

/-! ## Reachable lists are well-formed -/

theorem Reachable.inv {qsort : list_comp_func_t → List NodeId → List NodeId}
    (hq : ∀ cmp buf, (qsort cmp buf).Perm buf) {h : Heap} {p : Ptr}
    (hreach : Reachable qsort h p) : ∃ w, ListInv h p w := by
  induction hreach with
  | empty h => exact ⟨[], rfl⟩
  | append _ hwalk hx hrun ih =>
    obtain ⟨w0, hinv⟩ := ih
    have hw := Walk.unique hinv.walk hwalk
    subst hw
    obtain ⟨h1, r, hrun1, hinv1, -, -⟩ := hinv.append_fresh hx
    rw [hrun1] at hrun
    have e1 := (Prod.mk.inj (Option.some.inj hrun)).1
    have e2 := (Prod.mk.inj (Option.some.inj hrun)).2
    subst e1 e2
    exact ⟨_, hinv1⟩
  | @remove h p w x h' p' _ hwalk hx hrun ih =>
    obtain ⟨w0, hinv⟩ := ih
    have hw := Walk.unique hinv.walk hwalk
    subst hw
    cases p with
    | none =>
      have : w0 = [] := hinv
      subst this
      cases hx
    | some l =>
      have hwf : WellFormed h l w0 := hinv
      obtain ⟨h1, r, hrun1, -, hnone, hsome⟩ := hwf.remove hx
      rw [hrun1] at hrun
      have e1 := (Prod.mk.inj (Option.some.inj hrun)).1
      have e2 := (Prod.mk.inj (Option.some.inj hrun)).2
      subst e1 e2
      refine ⟨w0.erase x, ?_⟩
      cases r with
      | none => exact hnone rfl
      | some l' => exact hsome l' rfl
  | @sort h p cmp rev h' p' _ hrun ih =>
    obtain ⟨w0, hinv⟩ := ih
    cases p with
    | none =>
      have : list_sort_ qsort h none cmp rev = none := by
        unfold list_sort_
        rfl
      rw [this] at hrun
      cases hrun
    | some l =>
      have hwf : WellFormed h l w0 := hinv
      obtain ⟨first, out, hp', hwf', -⟩ := list_sort_returns_wf qsort cmp h l w0 rev hwf.walk
        hwf.count (hq cmp w0) h' p' hrun
      subst hp'
      exact ⟨out, hwf'⟩

/-- In a well-formed list, consecutive nodes of the walk point at each other. -/
theorem WellFormed.consecutive {h : Heap} {l : NodeId} {w : List NodeId}
    (hwf : WellFormed h l w) (s : List NodeId) (p q : NodeId) (t : List NodeId)
    (hw : w = s ++ p :: q :: t) : (h q).prev = some p ∧ (h p).next = some q := by
  subst hw
  constructor
  · obtain ⟨w', hw'⟩ := hwf.walk.head_eq
    have hlinks := hwf.links
    cases s with
    | nil =>
      have hl : PrevOk h l (q :: t) := hlinks
      have e : p = l := (List.cons.inj hw').1
      rw [e]
      exact hl.1
    | cons a s' =>
      have hl : PrevOk h l (s' ++ p :: q :: t) := hlinks
      exact (PrevOk.prev_append_iff.mp hl).2.2.1
  · obtain ⟨m, -, h2⟩ := Seg.split_iff.mp hwf.walk
    have h3 : Seg h (h p).next (q :: t) none := h2.2
    exact h3.1

/-- C12: previous-link invariant.  In every list reachable from the empty list
by `list_append_` (node not in the list), `list_remove_` (node in the list) and
`list_sort_` calls, consecutive nodes `p`, `q` of the forward walk satisfy
`q.prev = p` and `p.next = q`, and the walk over `prev` from the tail
`head.prev` back to the head is the reverse of the forward walk. -/
theorem prev_link_invariant (qsort : list_comp_func_t → List NodeId → List NodeId)
    (hq : ∀ cmp buf, (qsort cmp buf).Perm buf) (h : Heap) (head : NodeId)
    (hreach : Reachable qsort h (some head)) :
    ∃ w, Walk h (some head) w ∧
      (∀ s p q t, w = s ++ p :: q :: t → (h q).prev = some p ∧ (h p).next = some q) ∧
      BackWalk h head (h head).prev w.reverse := by
  obtain ⟨w, hinv⟩ := hreach.inv hq
  have hwf : WellFormed h head w := hinv
  exact ⟨w, hwf.walk, fun s p q t hw => hwf.consecutive s p q t hw, hwf.backWalk⟩

theorem prev_link_invariant_witness :
    (∀ cmp buf, (insertion_qsort cmp buf).Perm buf) ∧
      ∃ h, Reachable insertion_qsort h (some 1) ∧
        ∃ w, Walk h (some 1) w ∧
          (∀ s p q t, w = s ++ p :: q :: t → (h q).prev = some p ∧ (h p).next = some q) ∧
          BackWalk h 1 (h 1).prev w.reverse :=
  have r0 : Reachable insertion_qsort emptyHeap none := Reachable.empty emptyHeap
  have r1 := @Reachable.append insertion_qsort _ _ [] 0 _ _ r0 rfl (by decide) rfl
  have r2 := @Reachable.append insertion_qsort _ _ [0] 1 _ _ r1 (by decide) (by decide) rfl
  have r3 := @Reachable.append insertion_qsort _ _ [0, 1] 2 _ _ r2 (by decide) (by decide) rfl
  have r4 := @Reachable.remove insertion_qsort _ _ [0, 1, 2] 0 _ _ r3 (by decide) (by decide) rfl
  have r5 := @Reachable.sort insertion_qsort _ _ sortData true _ _ r4 rfl
  ⟨fun cmp buf => List.perm_insertionSort _ buf,
    _, r5, prev_link_invariant insertion_qsort (fun cmp buf => List.perm_insertionSort _ buf)
      _ 1 r5⟩

/-! ## What the sort rebuilds, and where it stops doing so -/

/-- In a well-formed list the `next` of the last node is absent. -/
theorem WellFormed.last_next {h : Heap} {l e : NodeId} {w : List NodeId}
    (hwf : WellFormed h l w) (he : w.getLast? = some e) : (h e).next = none := by
  obtain ⟨ini, rfl⟩ := List.getLast?_eq_some_iff.mp he
  exact (Seg.snoc_iff.mp hwf.walk).2

/-- Below the `int` limit (fewer than `2^31` nodes forward, at most `2^31`
reversed) `list_sort_` returns a head and rebuilds every structural invariant:
the forward walk is the sorted buffer in the requested direction, the head is
its first entry, `count` is the number of nodes, the head's `prev` is the last
node, whose `next` is absent, and every other node's `prev` is its predecessor. -/
theorem list_sort_rebuilds (qsort : list_comp_func_t → List NodeId → List NodeId)
    (cmp : list_comp_func_t) (h : Heap) (l : NodeId) (w : List NodeId) (rev : Bool)
    (hwalk : Walk h (some l) w) (hcount : (h l).count = w.length)
    (hperm : (qsort cmp w).Perm w)
    (hn : w.length + (if rev then 0 else 1) ≤ 2147483648) :
    ∃ h' first out last, list_sort_ qsort h (some l) cmp rev = some (h', some first) ∧
      out = (if rev then (qsort cmp w).reverse else qsort cmp w) ∧
      Walk h' (some first) out ∧ out.head? = some first ∧
      (h' first).count = w.length ∧
      out.getLast? = some last ∧ (h' first).prev = some last ∧ (h' last).next = none ∧
      ∀ s p q t, out = s ++ p :: q :: t → (h' q).prev = some p := by
  obtain ⟨h', first, hrun, hwf⟩ := list_sort_relinks qsort cmp h l w rev hwalk hcount hperm hn
  obtain ⟨out, hout⟩ :
      ∃ out, out = (if rev then (qsort cmp w).reverse else qsort cmp w) := ⟨_, rfl⟩
  rw [← hout] at hwf
  have hlen : out.length = w.length := by
    rw [hout]
    cases rev
    · exact hperm.length_eq
    · exact (List.length_reverse _).trans hperm.length_eq
  obtain ⟨w', hw'⟩ := hwf.walk.head_eq
  have hne : out ≠ [] := by rw [hw']; exact List.cons_ne_nil _ _
  have hlast : out.getLast? = some (out.getLast hne) := List.getLast?_eq_getLast _ hne
  refine ⟨h', first, out, out.getLast hne, hrun, hout, hwf.walk, by rw [hw']; rfl,
    hwf.count.trans hlen, hlast, hwf.tail.trans hlast, hwf.last_next hlast, ?_⟩
  intro s p q t hs
  exact (hwf.consecutive s p q t hs).1

/-- Below the `int` limit the reverse sort is the mirror of the sort: from the
same state and with the same array sort, both return, and the forward walk of
the reverse sort is the reverse of the forward walk of the sort. -/
theorem list_rsort_mirrors (qsort : list_comp_func_t → List NodeId → List NodeId)
    (cmp : list_comp_func_t) (h : Heap) (l : NodeId) (w : List NodeId)
    (hwalk : Walk h (some l) w) (hcount : (h l).count = w.length)
    (hperm : (qsort cmp w).Perm w) (hn : w.length < 2147483648) :
    ∃ hf ff hr fr out, list_sort_ qsort h (some l) cmp false = some (hf, some ff) ∧
      list_sort_ qsort h (some l) cmp true = some (hr, some fr) ∧
      Walk hf (some ff) out ∧ Walk hr (some fr) out.reverse := by
  obtain ⟨hf, ff, hrunf, hwff⟩ :=
    list_sort_relinks qsort cmp h l w false hwalk hcount hperm
      (by rw [if_neg Bool.false_ne_true]; omega)
  obtain ⟨hr, fr, hrunr, hwfr⟩ :=
    list_sort_relinks qsort cmp h l w true hwalk hcount hperm
      (by rw [if_pos rfl]; omega)
  rw [if_neg Bool.false_ne_true] at hwff
  rw [if_pos rfl] at hwfr
  exact ⟨hf, ff, hr, fr, qsort cmp w, hrunf, hrunr, hwff.walk, hwfr.walk⟩

/-- On a list of exactly `2^31` nodes the two directions part ways: the
reverse sort returns, the forward sort has undefined behaviour (`end + 1`
overflows). -/
theorem list_sort_directions_differ (qsort : list_comp_func_t → List NodeId → List NodeId)
    (cmp : list_comp_func_t) (h : Heap) (l : NodeId) (w : List NodeId)
    (hwalk : Walk h (some l) w) (hcount : (h l).count = w.length)
    (hperm : (qsort cmp w).Perm w) (hn : w.length = 2147483648) :
    list_sort_ qsort h (some l) cmp false = none ∧
      ∃ hr fr, list_sort_ qsort h (some l) cmp true = some (hr, some fr) ∧
        Walk hr (some fr) (qsort cmp w).reverse := by
  constructor
  · refine list_sort_none_of_int_max qsort cmp h l false rfl ?_
    rw [hcount, toInt_pred _ (by omega) (by omega), hn]
    rfl
  · obtain ⟨hr, fr, hrunr, hwfr⟩ :=
      list_sort_relinks qsort cmp h l w true hwalk hcount hperm
        (by rw [if_pos rfl]; omega)
    rw [if_pos rfl] at hwfr
    exact ⟨hr, fr, hrunr, hwfr.walk⟩

/-- The gather loop of `list_sort_` on any list whose `count` is the length of
its `next` chain: the buffer has `count` entries, and the loop fills it with
the nodes of the walk, each once, in walk order, without leaving it. -/
theorem gather_fills_buffer (h : Heap) (l : NodeId) (w : List NodeId)
    (hwalk : Walk h (some l) w) (hcount : (h l).count = w.length) :
    (8 * (h l).count % SIZE_MOD) / 8 = w.length ∧
      gather h ((8 * (h l).count % SIZE_MOD) / 8) (some l) [] = some w := by
  have hlenw := hwalk.length_le
  have hcap : (8 * (h l).count % SIZE_MOD) / 8 = w.length := by
    rw [hcount, capacity_eq _ hlenw]
  refine ⟨hcap, ?_⟩
  rw [hcap]
  have hg := gather_walk w.length [] hwalk (Nat.le_refl _)
  rw [List.nil_append] at hg
  exact hg

/-- C14 (the code breaks it on long lists): on the well-formed list of
`2^31 + 1` nodes, `list_sort_` returns no head in either direction, so it
returns no head with `count = n`, with the last node as its `prev` and with
the back links rebuilt: with any array sort and any comparator the behaviour
is undefined. -/
theorem list_sort_rebuild_fails_on_long_list :
    WellFormed (chainHeap 2147483649) (node 0) (chainWalk 2147483649) ∧
      (chainWalk 2147483649).length = 2147483649 ∧
      ∀ (qsort : list_comp_func_t → List NodeId → List NodeId) (cmp : list_comp_func_t)
        (rev : Bool),
        ¬ ∃ h' first, list_sort_ qsort (chainHeap 2147483649) (some (node 0)) cmp rev
              = some (h', some first) ∧ (h' first).count = 2147483649 := by
  refine ⟨chain_wf 2147483649 (by decide) (by decide), chainWalk_length 2147483649, ?_⟩
  rintro qsort cmp rev ⟨h', first, hrun, _⟩
  cases rev
  · rw [list_sort_overflow qsort cmp _ _ rfl] at hrun
    exact Option.noConfusion hrun
  · rw [list_rsort_overflow qsort cmp _ _ rfl] at hrun
    exact Option.noConfusion hrun

/-- C15 (the code breaks it on long lists): on the well-formed list of
`2^31 + 1` nodes, neither `list_sort_(head, cmp, false)` nor
`list_sort_(head, cmp, true)` returns, so there are no two forward walks of
which one is the reverse of the other. -/
theorem list_rsort_mirror_fails_on_long_list :
    WellFormed (chainHeap 2147483649) (node 0) (chainWalk 2147483649) ∧
      (chainWalk 2147483649).length = 2147483649 ∧
      ∀ (qsort : list_comp_func_t → List NodeId → List NodeId) (cmp : list_comp_func_t),
        ¬ ∃ hf pf hr pr out,
            list_sort_ qsort (chainHeap 2147483649) (some (node 0)) cmp false = some (hf, pf) ∧
            list_sort_ qsort (chainHeap 2147483649) (some (node 0)) cmp true = some (hr, pr) ∧
            Walk hf pf out ∧ Walk hr pr out.reverse := by
  refine ⟨chain_wf 2147483649 (by decide) (by decide), chainWalk_length 2147483649, ?_⟩
  rintro qsort cmp ⟨hf, pf, hr, pr, out, hrun, _, _, _⟩
  rw [list_sort_overflow qsort cmp _ _ rfl] at hrun
  exact Option.noConfusion hrun

/-- C20 (the code breaks the second half on long lists): on the well-formed
list of `2^31 + 1` nodes the gather loop does fill the buffer of `count`
entries with the walk, in order; but `count - 1` becomes the `int`
`-2147483648`, so the forward re-link loop, started at index 1 with exit test
`i != -2147483647`, never meets its exit test however many tests it is given,
the reverse re-link starts with a read at index `-2147483648`, outside the
buffer, and `list_sort_` terminates normally in neither direction. -/
theorem list_sort_relink_fails_on_long_list :
    WellFormed (chainHeap 2147483649) (node 0) (chainWalk 2147483649) ∧
      gather (chainHeap 2147483649)
        ((8 * (chainHeap 2147483649 (node 0)).count % SIZE_MOD) / 8) (some (node 0)) []
        = some (chainWalk 2147483649) ∧
      toInt (((chainHeap 2147483649 (node 0)).count + SIZE_MOD - 1) % SIZE_MOD)
        = -2147483648 ∧
      (∀ (buf : List NodeId) (tests : Nat) (h : Heap) (nl : Ptr),
        relink buf (-2147483647) 1 tests h nl 1 = none) ∧
      (∀ buf : List NodeId, index buf (-2147483648) = none) ∧
      ∀ (qsort : list_comp_func_t → List NodeId → List NodeId) (cmp : list_comp_func_t)
        (rev : Bool),
        list_sort_ qsort (chainHeap 2147483649) (some (node 0)) cmp rev = none := by
  have hwf := chain_wf 2147483649 (by decide) (by decide)
  refine ⟨hwf, (gather_fills_buffer _ _ _ hwf.walk hwf.count).2, toInt_two_pow_31, ?_, ?_, ?_⟩
  · intro buf tests h nl
    exact relink_up_none buf _ tests h nl 1 (by omega)
  · intro buf
    unfold index
    rw [if_neg (by omega)]
  · intro qsort cmp rev
    cases rev
    · exact list_sort_overflow qsort cmp _ _ rfl
    · exact list_rsort_overflow qsort cmp _ _ rfl

/-! ## Sorting twice -/

theorem StrictWeakOrder.refl_zero {cmp : list_comp_func_t} (hc : StrictWeakOrder cmp)
    (a : NodeId) : cmp a a = 0 := by
  have h1 := hc.swap a a
  by_contra hne
  rcases lt_or_gt_of_ne hne with h | h
  · have := h1.mpr h
    omega
  · have := h1.mp h
    omega

theorem StrictWeakOrder.symm_zero {cmp : list_comp_func_t} (hc : StrictWeakOrder cmp)
    (a b : NodeId) (h : cmp a b = 0) : cmp b a = 0 := by
  have h1 := hc.swap a b
  have h2 := hc.swap b a
  by_contra hne
  rcases lt_or_gt_of_ne hne with h' | h'
  · have := h1.mpr h'
    omega
  · have := h2.mp h'
    omega

/-- The head of a sorted list is not above any of its entries. -/
theorem sorted_head_le {cmp : list_comp_func_t} (hc : StrictWeakOrder cmp) (a : NodeId)
    (t : List NodeId) (hs : (a :: t).Pairwise (fun a b => cmp a b ≤ 0)) :
    ∀ y ∈ a :: t, cmp a y ≤ 0 := by
  intro y hy
  rcases List.mem_cons.mp hy with rfl | hy
  · exact le_of_eq (hc.refl_zero _)
  · exact (List.pairwise_cons.mp hs).1 y hy

/-- A sorted list whose head is strictly above `a` has no entry that is not
above `a`. -/
theorem sorted_count_zero {cmp : list_comp_func_t} (hc : StrictWeakOrder cmp) (a b : NodeId)
    (t : List NodeId) (hs : (b :: t).Pairwise (fun a b => cmp a b ≤ 0)) (hlt : cmp a b < 0) :
    (b :: t).countP (fun y => decide (cmp y a ≤ 0)) = 0 := by
  rw [List.countP_eq_zero]
  intro y hy hya
  have hya' : cmp y a ≤ 0 := by simpa using hya
  have hby := sorted_head_le hc b t hs y hy
  have hba := hc.le_trans b y a hby hya'
  have := (hc.swap b a).mpr hlt
  omega

theorem count_head_pos {cmp : list_comp_func_t} (hc : StrictWeakOrder cmp) (a : NodeId)
    (t : List NodeId) :
    (a :: t).countP (fun y => decide (cmp y a ≤ 0))
      = t.countP (fun y => decide (cmp y a ≤ 0)) + 1 :=
  List.countP_cons_of_pos _ t (by simpa using le_of_eq (hc.refl_zero a))

/-- Two sorted lists in which, for every `x`, equally many entries are not
above `x`, agree entry by entry up to comparator equivalence. -/
theorem sorted_equiv_of_counts {cmp : list_comp_func_t} (hc : StrictWeakOrder cmp) :
    ∀ (l1 l2 : List NodeId), l1.Pairwise (fun a b => cmp a b ≤ 0) →
      l2.Pairwise (fun a b => cmp a b ≤ 0) →
      (∀ x, l1.countP (fun y => decide (cmp y x ≤ 0))
        = l2.countP (fun y => decide (cmp y x ≤ 0))) →
      List.Forall₂ (fun a b => cmp a b = 0) l1 l2
  | [], [], _, _, _ => List.Forall₂.nil
  | [], b :: t, _, _, hcnt => by
    have hp := hcnt b
    rw [List.countP_nil, count_head_pos hc] at hp
    omega
  | a :: t, [], _, _, hcnt => by
    have hp := hcnt a
    rw [List.countP_nil, count_head_pos hc] at hp
    omega
  | a :: t1, b :: t2, h1, h2, hcnt => by
    have hab : ¬ cmp a b < 0 := by
      intro hlt
      have hp := hcnt a
      rw [sorted_count_zero hc a b t2 h2 hlt, count_head_pos hc] at hp
      omega
    have hba : ¬ cmp b a < 0 := by
      intro hlt
      have hp := hcnt b
      rw [sorted_count_zero hc b a t1 h1 hlt, count_head_pos hc] at hp
      omega
    have heq : cmp a b = 0 := by
      have hsw := hc.swap a b
      by_contra hne
      rcases lt_or_gt_of_ne hne with h | h
      · exact hab h
      · exact hba (hsw.mp h)
    refine List.Forall₂.cons heq
      (sorted_equiv_of_counts hc t1 t2 (List.pairwise_cons.mp h1).2
        (List.pairwise_cons.mp h2).2 ?_)
    intro x
    have hp := hcnt x
    rw [List.countP_cons, List.countP_cons] at hp
    have hiff : cmp a x ≤ 0 ↔ cmp b x ≤ 0 :=
      ⟨fun h => hc.le_trans b a x (le_of_eq (hc.symm_zero a b heq)) h,
        fun h => hc.le_trans a b x (le_of_eq heq) h⟩
    by_cases hax : cmp a x ≤ 0
    · have hbx := hiff.mp hax
      simpa [hax, hbx] using hp
    · have hbx : ¬ cmp b x ≤ 0 := fun h => hax (hiff.mpr h)
      simpa [hax, hbx] using hp

/-- Two sorted arrangements of the same nodes agree entry by entry up to
comparator equivalence. -/
theorem sorted_perm_equiv {cmp : list_comp_func_t} (hc : StrictWeakOrder cmp)
    (l1 l2 : List NodeId) (hp : l1.Perm l2) (h1 : l1.Pairwise (fun a b => cmp a b ≤ 0))
    (h2 : l2.Pairwise (fun a b => cmp a b ≤ 0)) :
    List.Forall₂ (fun a b => cmp a b = 0) l1 l2 :=
  sorted_equiv_of_counts hc l1 l2 h1 h2 (fun _ => hp.countP_eq _)

/-- When the comparator is the difference of integer keys, walks that agree up
to comparator equivalence have the same key sequence. -/
theorem keys_eq_of_equiv (cmp : list_comp_func_t) (key : NodeId → Int)
    (hkey : ∀ a b, cmp a b = key a - key b) (l1 l2 : List NodeId)
    (hf : List.Forall₂ (fun a b => cmp a b = 0) l1 l2) : l1.map key = l2.map key := by
  induction hf with
  | nil => rfl
  | @cons a b t1 t2 hab _ ih =>
    have hab' : cmp a b = 0 := hab
    have e : key a = key b := by
      have := hkey a b
      omega
    rw [List.map_cons, List.map_cons, ih, e]

/-- Below the `int` limit, sorting the result of `list_sort_` again, in the same
direction, returns a list of the same nodes whose forward walk agrees with the
walk of the first sort entry by entry up to comparator equivalence; for a
comparator on integer keys the two key sequences are equal. -/
theorem list_sort_twice (qsort : list_comp_func_t → List NodeId → List NodeId)
    (hq : QsortContract qsort) (cmp : list_comp_func_t) (hcmp : StrictWeakOrder cmp)
    (h : Heap) (l : NodeId) (w : List NodeId) (rev : Bool)
    (hwalk : Walk h (some l) w) (hcount : (h l).count = w.length)
    (hn : w.length + (if rev then 0 else 1) ≤ 2147483648) :
    ∃ h1 f1 out1 h2 f2 out2,
      list_sort_ qsort h (some l) cmp rev = some (h1, some f1) ∧
      Walk h1 (some f1) out1 ∧ out1.Perm w ∧
      list_sort_ qsort h1 (some f1) cmp rev = some (h2, some f2) ∧
      Walk h2 (some f2) out2 ∧ out2.Perm w ∧
      List.Forall₂ (fun a b => cmp a b = 0) out1 out2 ∧
      ∀ key : NodeId → Int, (∀ a b, cmp a b = key a - key b) →
        out1.map key = out2.map key := by
  obtain ⟨hperm, hsorted⟩ := hq cmp hcmp w
  obtain ⟨h1, f1, hrun1, hwf1⟩ := list_sort_relinks qsort cmp h l w rev hwalk hcount hperm hn
  obtain ⟨out1, hout1⟩ :
      ∃ out, out = (if rev then (qsort cmp w).reverse else qsort cmp w) := ⟨_, rfl⟩
  rw [← hout1] at hwf1
  have hp1 : out1.Perm w := by
    rw [hout1]
    cases rev
    · exact hperm
    · exact (List.reverse_perm _).trans hperm
  obtain ⟨hperm2, hsorted2⟩ := hq cmp hcmp out1
  obtain ⟨h2, f2, hrun2, hwf2⟩ :=
    list_sort_relinks qsort cmp h1 f1 out1 rev hwf1.walk hwf1.count hperm2
      (by rw [hp1.length_eq]; exact hn)
  obtain ⟨out2, hout2⟩ :
      ∃ out, out = (if rev then (qsort cmp out1).reverse else qsort cmp out1) := ⟨_, rfl⟩
  rw [← hout2] at hwf2
  have hp2 : out2.Perm out1 := by
    rw [hout2]
    cases rev
    · exact hperm2
    · exact (List.reverse_perm _).trans hperm2
  have hequiv : List.Forall₂ (fun a b => cmp a b = 0) out1 out2 := by
    cases rev
    · rw [hout2, hout1]
      rw [hout1] at hsorted2 hperm2
      exact sorted_perm_equiv hcmp _ _ hperm2.symm hsorted hsorted2
    · have hs : List.Forall₂ (fun a b => cmp a b = 0) (qsort cmp w) (qsort cmp out1) :=
        sorted_perm_equiv hcmp _ _ (hperm.trans (hp1.symm.trans hperm2.symm)) hsorted hsorted2
      rw [hout2, hout1]
      rw [hout1] at hs
      exact List.forall₂_reverse_iff.mpr hs
  exact ⟨h1, f1, out1, h2, f2, out2, hrun1, hwf1.walk, hp1, hrun2, hwf2.walk,
    hp2.trans hp1, hequiv, fun key hkey => keys_eq_of_equiv cmp key hkey _ _ hequiv⟩

/-- C11 (the code breaks it on long lists): on the well-formed list of
`2^31 + 1` nodes there is no first sort whose result could be sorted again:
in either direction, with any array sort and any comparator, the first call
of `list_sort_` already has undefined behaviour. -/
theorem list_sort_twice_fails_on_long_list :
    WellFormed (chainHeap 2147483649) (node 0) (chainWalk 2147483649) ∧
      (chainWalk 2147483649).length = 2147483649 ∧
      ∀ (qsort : list_comp_func_t → List NodeId → List NodeId) (cmp : list_comp_func_t)
        (rev : Bool),
        ¬ ∃ h1 p1 h2 p2,
            list_sort_ qsort (chainHeap 2147483649) (some (node 0)) cmp rev = some (h1, p1) ∧
            list_sort_ qsort h1 p1 cmp rev = some (h2, p2) := by
  refine ⟨chain_wf 2147483649 (by decide) (by decide), chainWalk_length 2147483649, ?_⟩
  rintro qsort cmp rev ⟨h1, p1, h2, p2, hrun, _⟩
  cases rev
  · rw [list_sort_overflow qsort cmp _ _ rfl] at hrun
    exact Option.noConfusion hrun
  · rw [list_rsort_overflow qsort cmp _ _ rfl] at hrun
    exact Option.noConfusion hrun

end Intrlist
